import Mathlib

/-!
# Verification of the dreamSort mod-manager core (HB_dreamSort.py)

This file gives a shallow embedding of the core, UI-independent logic of
`src/HB_dreamSort.py` (class `DreamSort` and the cheat-parsing helper of
`DreamSortApp._initialize_pending_cheats`) and proves or refutes the frozen
claims about it.

Modelling conventions:
* Python strings are Lean `String`s; most functions work on `List Char`
  (`String.data`) so that everything is executable and decidable.
* Python regular expressions are modelled operationally, by functions that
  reproduce the leftmost-match / greedy / lazy behaviour of the concrete
  patterns appearing in the source (each model function documents its
  pattern).  Digit classes are modelled as ASCII digits, matching the
  explicit `[0-9]` classes of the source; `\s` is modelled as Python's
  ASCII whitespace set.
* The filesystem is modelled by explicit data (`FsEntry` trees for the scan,
  an `Env` of injected I/O outcomes for the apply pipeline); filesystem
  operations performed by the code are recorded as an `Eff` list and
  messages put on the progress queue as a `Msg` list, in execution order.
* Python `dict`s are association lists with in-place update (`updAssoc`),
  preserving Python 3.7+ insertion-order semantics; `dict.get` is `lookupA`.
-/

namespace DreamSort

/-- Characters of Python's regex class `[.!~]` used by the disable/marker
prefix alternative of `strip_prefix`. -/
def markChar (c : Char) : Bool := c = '.' || c = '!' || c = '~'

/-- Python `str.strip()` / `.strip()`'s whitespace set (ASCII part), which is
also the set matched by `\s` on ASCII text. -/
def pyWs (c : Char) : Bool :=
  c = ' ' || c = '\t' || c = '\n' || c = '\r' || c = '\x0b' || c = '\x0c'

/-- Python `.strip()` on a character list: remove leading and trailing
whitespace. -/
def pyStrip (cs : List Char) : List Char :=
  ((cs.dropWhile pyWs).reverse.dropWhile pyWs).reverse

/-- Python `str.lower()` (ASCII range, as used on the ASCII names the code
compares with `"cheats"` / `"romfs"`). -/
def lowerStr (s : String) : String := ⟨s.data.map Char.toLower⟩

/-- Split a character list on a separator character (used to model
`str.split`-style path manipulation of `os.path`). -/
def splitOnChar (sep : Char) : List Char → List (List Char)
  | [] => [[]]
  | c :: t =>
    let r := splitOnChar sep t
    if c = sep then [] :: r
    else
      match r with
      | [] => [[c]]
      | h :: t2 => (c :: h) :: t2

/-- Join character lists with a separator list. -/
def joinWith (sep : List Char) : List (List Char) → List Char
  | [] => []
  | [x] => x
  | x :: xs => x ++ sep ++ joinWith sep xs

/-- Association-list lookup, modelling Python `dict.get(k)` (`none` = absent,
mirroring `None`). -/
def lookupA {α : Type} (l : List (String × α)) (k : String) : Option α :=
  match l with
  | [] => none
  | p :: t => if p.1 = k then some p.2 else lookupA t k

/-- Python `dict[k] = v`: replace in place if the key is present (keeping its
position, as Python 3.7+ dicts do), else append. -/
def updAssoc {α : Type} (l : List (String × α)) (k : String) (v : α) :
    List (String × α) :=
  if (l.any (fun p => p.1 = k)) then
    l.map (fun p => if p.1 = k then (k, v) else p)
  else l ++ [(k, v)]

/-- Python `dict.pop(k, None)`: the value (if any) and the dict without `k`. -/
def popAssoc {α : Type} (l : List (String × α)) (k : String) :
    Option α × List (String × α) :=
  (lookupA l k, l.filter (fun p => ¬ p.1 = k))

/-!
## Naming codec: `DreamSort.strip_prefix` (source lines 144-147)

```python
match = re.match(r"^(?:\d+_)|(?:[.!~]+_?)", name)
return name[match.end():] if match else name
```

`re.match` anchors at position 0.  The first alternative `\d+_` matches iff
the (maximal) leading digit run is non-empty and is immediately followed by
`_` (backtracking inside the run cannot help: every shorter prefix of the
run is followed by a digit, not `_`).  The second alternative `[.!~]+_?`
matches iff the first character is a marker, consuming the maximal marker
run and then one optional `_`.  Alternation order is irrelevant: the two
alternatives have disjoint sets of possible first characters.
-/

/-- `strip_prefix` on a character list. -/
def stripPrefixL (cs : List Char) : List Char :=
  let digits := cs.takeWhile Char.isDigit
  let rest := cs.dropWhile Char.isDigit
  if digits ≠ [] then
    match rest with
    | c :: t => if c = '_' then t else cs
    | [] => cs
  else
    let marks := cs.takeWhile markChar
    let rest2 := cs.dropWhile markChar
    if marks ≠ [] then
      match rest2 with
      | c :: t => if c = '_' then t else c :: t
      | [] => []
    else cs

/-- Model of `DreamSort.strip_prefix`. -/
def strip_prefix (name : String) : String := ⟨stripPrefixL name.data⟩

/-- `pre` is a match of the first alternative `\d+_`: one or more digits
followed by `_`. -/
def digitMatchB (pre : List Char) : Bool :=
  decide (2 ≤ pre.length) && pre.dropLast.all Char.isDigit &&
    pre.getLast? = some '_'

/-- `pre` is a match of the second alternative `[.!~]+_?`: one or more
marker characters, optionally followed by `_`. -/
def markMatchB (pre : List Char) : Bool :=
  match pre.getLast? with
  | none => false
  | some c =>
    if c = '_' then pre.dropLast ≠ [] && pre.dropLast.all markChar
    else pre.all markChar

/-- The regex of `strip_prefix` has a match at position 0 of `cs`. -/
def leadMatchB (cs : List Char) : Bool :=
  (cs.takeWhile Char.isDigit ≠ [] &&
    (cs.dropWhile Char.isDigit).head? = some '_') ||
  (match cs.head? with
   | some c => markChar c
   | none => false)

/-!
## Load-order scanner: `DreamSort.get_current_load_order` (source lines 126-142)

```python
dirs.sort(key=lambda x: [int(c) if c.isdigit() else c
                         for c in re.split("([0-9]+)", x)])
```

`re.split("([0-9]+)", x)` returns the non-digit stretches of `x` (possibly
empty at either end) interleaved with the captured digit runs, always
starting and ending with a non-digit stretch; the key converts the digit
runs to integers.  Keys are compared as Python lists: lexicographically,
element by element.  Because every key alternates string, int, string, ...
starting with a string, two keys always hold values of the same type at the
same index, so the int/str comparison that Python would refuse never occurs;
`chunkLt`'s mixed cases below are therefore unreachable in a comparison of
two `pySplit` keys and are fixed arbitrarily.
-/

/-- One element of the Python sort key: a non-digit stretch or the integer
value of a digit run. -/
inductive Chunk
| str (s : List Char)
| num (n : Nat)
deriving DecidableEq, Repr

/-- `int(c)` on a digit run (base-10 value, leading zeros allowed). -/
def digVal (ds : List Char) : Nat :=
  ds.foldl (fun a c => a * 10 + (c.toNat - 48)) 0

theorem length_dropWhile_le (p : Char → Bool) :
    ∀ l : List Char, (List.dropWhile p l).length ≤ l.length := by
  intro l
  induction l with
  | nil => simp [List.dropWhile]
  | cons c t ih =>
      by_cases h : p c
      · simp [List.dropWhile, h]; omega
      · simp [List.dropWhile, h]

/-- The Python sort key `[int(c) if c.isdigit() else c
for c in re.split("([0-9]+)", x)]` of `get_current_load_order`, with an
explicit termination bound: every recursive step consumes at least one
character, so any bound of at least `cs.length` computes the full
split (the bound-exhausted branch is never reached from `pySplit`). -/
def pySplitF : Nat → List Char → List Chunk
  | 0, cs => [Chunk.str (cs.takeWhile (fun c => !c.isDigit))]
  | fuel + 1, cs =>
      let nd := cs.takeWhile (fun c => !c.isDigit)
      match cs.dropWhile (fun c => !c.isDigit) with
      | [] => [Chunk.str nd]
      | c :: t =>
          Chunk.str nd ::
            Chunk.num (digVal (List.takeWhile Char.isDigit (c :: t))) ::
              pySplitF fuel (List.dropWhile Char.isDigit t)

/-- The sort key of a name. -/
def pySplit (cs : List Char) : List Chunk := pySplitF cs.length cs

/-- Python string `<` (lexicographic by code point). -/
def strLt : List Char → List Char → Bool
  | [], [] => false
  | [], _ :: _ => true
  | _ :: _, [] => false
  | a :: as, b :: bs => if a = b then strLt as bs else decide (a < b)

/-- Python `<` on two key elements.  The mixed constructor cases never arise
between two `pySplit` keys (see the section comment); they are fixed so that
a digit chunk sorts before a string chunk, the convention forced on the
spec-level comparator by the code's behaviour. -/
def chunkLt : Chunk → Chunk → Bool
  | Chunk.str a, Chunk.str b => strLt a b
  | Chunk.num a, Chunk.num b => decide (a < b)
  | Chunk.num _, Chunk.str _ => true
  | Chunk.str _, Chunk.num _ => false

/-- Python `<` on two key lists (list lexicographic comparison). -/
def keyLt : List Chunk → List Chunk → Bool
  | [], [] => false
  | [], _ :: _ => true
  | _ :: _, [] => false
  | a :: as, b :: bs => if a = b then keyLt as bs else chunkLt a b

/-- Stable insertion into a sorted list: a new element goes after every
element it is not strictly below, which is where Python's stable sort
puts a later-arriving equal element. -/
def insertLt {α : Type} (lt : α → α → Bool) (x : α) : List α → List α
  | [] => [x]
  | y :: ys => if lt x y then x :: y :: ys else y :: insertLt lt x ys

/-- Stable ascending sort by a strict comparison, modelling `list.sort`. -/
def sortLt {α : Type} (lt : α → α → Bool) (l : List α) : List α :=
  l.foldl (fun acc x => insertLt lt x acc) []

/-- The comparison `get_current_load_order` sorts by. -/
def dirLt (a b : String) : Bool := keyLt (pySplit a.data) (pySplit b.data)

/-- Model of `DreamSort.get_current_load_order`, given the names of the
subdirectories of the mods path. -/
def get_current_load_order (dirs : List String) : List String :=
  sortLt dirLt dirs

/-- Natural-comparator chunks as the spec describes them: the name split
into alternating maximal digit and non-digit runs, digit runs as their
integer values.  Unlike `pySplit`, no empty stretches are inserted. -/
def specRuns (cs : List Char) : List Chunk :=
  match cs with
  | [] => []
  | c :: t =>
    if c.isDigit then
      Chunk.num (digVal (List.takeWhile Char.isDigit (c :: t))) ::
        specRuns (List.dropWhile Char.isDigit t)
    else
      Chunk.str (List.takeWhile (fun x => !x.isDigit) (c :: t)) ::
        specRuns (List.dropWhile (fun x => !x.isDigit) t)
termination_by cs.length
decreasing_by
  · have h2 : (List.dropWhile Char.isDigit t).length ≤ t.length :=
      length_dropWhile_le _ t
    simp; omega
  · have h2 : (List.dropWhile (fun x => !x.isDigit) t).length ≤ t.length :=
      length_dropWhile_le _ t
    simp; omega

/-- The spec's natural comparator: compare the alternating run lists,
digit runs as integers, non-digit runs by code point, a digit run before
a non-digit run. -/
def naturalLt (a b : String) : Bool := keyLt (specRuns a.data) (specRuns b.data)

/-!
## Scanner and conflict analyzer: `DreamSort.scan_and_analyze`
(source lines 149-201)

The filesystem under the mods path is modelled as a list of mod directories,
each a named tree of entries.  `os.walk` with the in-place pruning
`dirs[:] = [d for d in dirs if d.lower() != "cheats"]` is modelled by
`walkL`, which collects every file whose path reaches it without crossing a
directory named `cheats` (case-insensitively), as `mod-relative` paths
joined with `/`.  (`walkL` interleaves files and subdirectories in listing
order where `os.walk` lists a directory's files before descending; the
collected set of paths is identical, and every downstream use — the
`mod_files` sets and the per-file contributor lists, which append one entry
per mod in mod order — is insensitive to the file enumeration order.)
-/

/-- A filesystem entry inside a mod directory. -/
inductive FsEntry
| file (name : String)
| dir (name : String) (children : List FsEntry)

/-- The name `os.listdir` reports for an entry. -/
def entryName : FsEntry → String
  | FsEntry.file n => n
  | FsEntry.dir n _ => n

/-- A mod directory: its raw name and its contents. -/
structure ModDir where
  name : String
  children : List FsEntry

mutual

/-- Files contributed by one entry under path accumulator `pre`;
directories named `cheats` (case-insensitively) are pruned. -/
def walkE (pre : String) : FsEntry → List String
  | FsEntry.file n => [pre ++ n]
  | FsEntry.dir n cs =>
      if lowerStr n = "cheats" then [] else walkL (pre ++ n ++ "/") cs

/-- Files contributed by a directory listing. -/
def walkL (pre : String) : List FsEntry → List String
  | [] => []
  | e :: es => walkE pre e ++ walkL pre es

end

/-- `self.strip_prefix(mod_name).lower() == "cheats"`: detection of the
special cheats folder — the first mod of the load order whose clean name is
`cheats` case-insensitively (source lines 158-161). -/
def findSpecial : List String → Option String
  | [] => none
  | n :: t =>
      if lowerStr ( strip_prefix n) = "cheats" then some n else findSpecial t

/-- Cheat-only classification from the top-level listing (source lines
170-176): it contains `cheats` and does not contain `romfs`,
case-insensitively. -/
def cheatOnlyB (children : List FsEntry) : Bool :=
  let lower := children.map (fun e => lowerStr (entryName e))
  lower.contains "cheats" && !(lower.contains "romfs")

/-- The children of the first directory with a given name (on a real
filesystem names are unique). -/
def childrenOf : List ModDir → String → Option (List FsEntry)
  | [], _ => none
  | d :: t, n => if d.name = n then some d.children else childrenOf t n

/-- `file_to_mods_map[relative_path].append(mod_name)` with the
`if relative_path not in file_to_mods_map` initialisation. -/
def addProvider (m : List (String × List String)) (path modName : String) :
    List (String × List String) :=
  match lookupA m path with
  | none => m ++ [(path, [modName])]
  | some l => updAssoc m path (l ++ [modName])

/-- Accumulation of `file_to_mods_map` over the scanned mods (mods in load
order, each mod's files in enumeration order). -/
def buildIndex (mods : List (String × List String)) :
    List (String × List String) :=
  mods.foldl (fun acc p => p.2.foldl (fun a f => addProvider a f p.1) acc) []

/-- `self.conflicts[mod_name][file_path] = [m for m in mods if m != mod_name]`
with the missing-entry initialisation. -/
def addConflict (c : List (String × List (String × List String)))
    (modName path : String) (others : List String) :
    List (String × List (String × List String)) :=
  updAssoc c modName (updAssoc ((lookupA c modName).getD []) path others)

/-- The conflict-map construction (source lines 191-201). -/
def buildConflicts (index : List (String × List String))
    (cheatOnly : List String) : List (String × List (String × List String)) :=
  index.foldl
    (fun acc p =>
      if 1 < p.2.length then
        p.2.foldl
          (fun a m =>
            if cheatOnly.contains m then a
            else addConflict a m p.1 (p.2.filter (fun x => ¬ x = m)))
          acc
      else acc)
    []

/-- The state `scan_and_analyze` leaves on the `DreamSort` object. -/
structure ScanResult where
  load_order : List String
  mod_files : List (String × List String)
  conflicts : List (String × List (String × List String))
  cheat_only_mods : List String
  special_cheats_folder_name : Option String
deriving DecidableEq, Repr

/-- The scanned mods: the load order with the special cheats folder
skipped, each name paired with its directory contents. -/
def scannedMods (root : List ModDir) (order : List String)
    (special : Option String) : List (String × List FsEntry) :=
  order.filterMap (fun n =>
    if some n = special then none
    else (childrenOf root n).map (fun cs => (n, cs)))

/-- Model of `DreamSort.scan_and_analyze` on a mod root. -/
def scan_and_analyze (root : List ModDir) : ScanResult :=
  let order := get_current_load_order (root.map ModDir.name)
  let special := findSpecial order
  let scanned := scannedMods root order special
  let cheatOnly := (scanned.filter (fun p => cheatOnlyB p.2)).map Prod.fst
  let modFiles := scanned.map (fun p => (p.1, walkL "" p.2))
  { load_order := order
    mod_files := modFiles
    conflicts := buildConflicts (buildIndex modFiles) cheatOnly
    cheat_only_mods := cheatOnly
    special_cheats_folder_name := special }

/-- `m` provides file `f` in the scan of `root`: `f` is in `m`'s scanned
file set. -/
def providesB (s : ScanResult) (m f : String) : Bool :=
  match lookupA s.mod_files m with
  | none => false
  | some fs => fs.contains f

/-- `f` appears in `m`'s conflict entry in the scan result. -/
def inConflictB (s : ScanResult) (m f : String) : Bool :=
  match lookupA s.conflicts m with
  | none => false
  | some entry => (lookupA entry f).isSome

/-- `other` is listed as a contributor in `m`'s conflict entry for `f`. -/
def contributorB (s : ScanResult) (m f other : String) : Bool :=
  match lookupA s.conflicts m with
  | none => false
  | some entry =>
    match lookupA entry f with
    | none => false
    | some l => l.contains other

/-!
## Order applier: `DreamSort.apply_new_order_threaded` (source lines 306-429)
with its helpers `_update_ryujinx_mods_json` (203-241) and
`_apply_cheat_selections_threaded` (243-304)

The pipeline is modelled as a pure trace generator: an `Env` fixes the
outcome of every I/O operation the code performs (directory listing,
each rename, the two file writes), and the model returns the exact
sequence of progress-queue messages (`Msg`) and of performed filesystem
operations (`Eff`), in execution order.  Progress fractions are modelled
as exact rationals.  `os.path.join` is modelled with the `/` separator and
`os.path.abspath` as the identity (no claim depends on path syntax).
-/

/-- A message put on the progress queue. -/
inductive Msg
| status (text : String)
| progress (value : ℚ) (text : String)
| error (message : String)
| done
deriving DecidableEq, Repr

/-- A filesystem operation performed by the pipeline. -/
inductive Eff
| rename (src dst : String)
| makedirs (path : String)
| writeJson (path : String) (entries : List (String × String × Bool))
| truncateFile (path : String)
| writeCheats (path : String) (content : String)
deriving DecidableEq, Repr

/-- The outcome of a failed `shutil.move`: a `PermissionError` or a generic
exception, with its text. -/
structure RenameErr where
  perm : Bool
  text : String
deriving DecidableEq, Repr

/-- The I/O outcomes of one apply run. -/
structure Env where
  /-- `self.mods_path`; `""` models an unset path (Python falsiness). -/
  mods_path : String
  /-- The mod-directory listing, or the text of the exception it raised. -/
  listDirs : Except String (List String)
  /-- The outcome of `shutil.move(src, dst)`: `none` = success. -/
  renameFail : String → String → Option RenameErr
  /-- `self.mods_json_path`. -/
  mods_json_path : Option String
  /-- Exception text of the `mods.json` write, if it fails. -/
  jsonWriteFail : Option String
  /-- Exception text of the `enabled.txt` write, if it fails. -/
  cheatWriteFail : Option String

/-- `f"{clean_name}__temp_rename__"`. -/
def TEMP_SUFFIX : String := "__temp_rename__"

/-- `DreamSort.CHEAT_BUILD_ID_PREFIX`. -/
def BUILD_ID : String := "FB08F1D20FD1204F-"

/-- `os.path.join` with the `/` separator. -/
def joinPath (a b : String) : String := a ++ "/" ++ b

/-- `os.path.basename` (`/` separator). -/
def basenameOf (p : String) : String :=
  ⟨((splitOnChar '/' p.data).getLast?).getD p.data⟩

/-- `os.path.dirname` (`/` separator). -/
def dirnameOf (p : String) : String :=
  ⟨joinWith ['/'] ((splitOnChar '/' p.data).dropLast)⟩

/-- The phase-1 error message for a failed rename of `m` (source lines
351-361). -/
def p1ErrMsg (m : String) (e : RenameErr) : String :=
  if e.perm then
    "Permission denied while renaming '" ++ m ++
      "'. Please close Ryujinx and try again. If the issue persists, try running dreamSort Mod Manager as an administrator."
  else
    "Could not rename mod '" ++ m ++
      "' to a temporary state (Phase 1). The process has been halted.\n\nError: " ++ e.text

/-- The phase-2 error message (source lines 413-424). -/
def p2ErrMsg (e : RenameErr) : String :=
  if e.perm then
    "Permission denied while applying new order. Your mods may be in a temporary state (ending with '__temp_rename__').\n\nPlease close Ryujinx, restart dreamSort, and try again. If that fails, manually remove the suffix from your mod folders.\n\nError: " ++ e.text
  else
    "Could not apply new order (Phase 2). Your mods are in a temporary state (ending with '__temp_rename__'). Please rename them manually.\n\nError: " ++ e.text

/-- The result of phase 1 (`err = some e`: the loop halted after putting
the error message `e`, which is the last element of `msgs`). -/
structure P1Result where
  msgs : List Msg
  effs : List Eff
  tempMap : List (String × String)
  opsDone : Nat
  err : Option String

/-- Phase 1 (source lines 334-362): rename every current mod directory to
its temp name, in listing order, recording `cleanName -> tempName`; halt on
the first failure. -/
def phase1Go (env : Env) (total : Nat) :
    List String → Nat → List (String × String) → List Msg → List Eff →
      P1Result
  | [], ops, tm, msgs, effs => ⟨msgs, effs, tm, ops, none⟩
  | m :: rest, ops, tm, msgs, effs =>
    let clean := strip_prefix m
    let temp := clean ++ TEMP_SUFFIX
    let msgs := msgs ++
      [Msg.progress ((ops : ℚ) / (total : ℚ)) ("Backing up: '" ++ m ++ "'")]
    match env.renameFail m temp with
    | some e => ⟨msgs ++ [Msg.error (p1ErrMsg m e)], effs, tm, ops,
        some (p1ErrMsg m e)⟩
    | none =>
        phase1Go env total rest (ops + 1) (updAssoc tm clean temp) msgs
          (effs ++ [Eff.rename m temp])

/-- The special-folder step of phase 2 (source lines 368-376): pop the
special folder's clean name from the temp map and, when present, move the
temp directory back to the original raw name. -/
def specialStep (env : Env) (special : Option String)
    (tm : List (String × String)) :
    List Eff × List (String × String) × Option RenameErr :=
  match special with
  | none => ([], tm, none)
  | some s =>
    let res := popAssoc tm ( strip_prefix s)
    match res.1 with
    | none => ([], res.2, none)
    | some temp =>
      match env.renameFail temp s with
      | some e => ([], res.2, some e)
      | none => ([Eff.rename temp s], res.2, none)

/-- `f"{enabled_romfs_index:02d}"`. -/
def pad2 (n : Nat) : String := if n < 10 then "0" ++ toString n else toString n

/-- The result of the phase-2 loop (`err` as in `P1Result`). -/
structure P2Result where
  msgs : List Msg
  effs : List Eff
  records : List (String × Bool)
  idx : Nat
  opsDone : Nat
  err : Option String

/-- The phase-2 loop over `ordered_mods_config` (source lines 378-412):
skip the special folder and mods without a temp entry; disabled or
cheat-only mods get the `~` prefix, the rest the next two-digit counter
value; rename and record. -/
def phase2Loop (env : Env) (special : Option String) (cheatOnly : List String)
    (tempMap : List (String × String)) (total : Nat) :
    List (String × Bool) → Nat → Nat → List Msg → List Eff →
      List (String × Bool) → P2Result
  | [], idx, ops, msgs, effs, recs => ⟨msgs, effs, recs, idx, ops, none⟩
  | (m, en) :: rest, idx, ops, msgs, effs, recs =>
    if some m = special then
      phase2Loop env special cheatOnly tempMap total rest idx ops msgs effs recs
    else
      let clean := strip_prefix m
      match lookupA tempMap clean with
      | none =>
          phase2Loop env special cheatOnly tempMap total rest idx ops msgs effs
            recs
      | some temp =>
        let fin :=
          if cheatOnly.contains m || !en then ("~" ++ clean, false, idx)
          else (pad2 (idx + 1) ++ "_" ++ clean, true, idx + 1)
        let msgs := msgs ++
          [Msg.progress ((ops : ℚ) / (total : ℚ))
            ("Writing: '" ++ fin.1 ++ "'")]
        match env.renameFail temp fin.1 with
        | some e =>
            ⟨msgs ++ [Msg.error (p2ErrMsg e)], effs, recs, fin.2.2, ops,
              some (p2ErrMsg e)⟩
        | none =>
            phase2Loop env special cheatOnly tempMap total rest fin.2.2
              (ops + 1) msgs (effs ++ [Eff.rename temp fin.1])
              (recs ++ [(fin.1, fin.2.1)])

/-- `DreamSort._update_ryujinx_mods_json` (source lines 203-241).  When the
write fails, the failure is modelled at the `open`/`json.dump` call, after
the directory creation. -/
def updateModsJson (env : Env) (finalList : List (String × Bool)) :
    List Msg × List Eff :=
  match env.mods_json_path with
  | none => ([Msg.status "Skipping mods.json (path not found)."], [])
  | some jp =>
    let msgs := [Msg.status "Phase 3: Updating Ryujinx mods.json...",
      Msg.progress (19 / 20 : ℚ) ("Writing to " ++ basenameOf jp)]
    let entries := finalList.map
      (fun p => (p.1, joinPath env.mods_path p.1, p.2))
    match env.jsonWriteFail with
    | some e =>
        (msgs ++ [Msg.error ("Could not write to mods.json file.\n\nPath: " ++
          jp ++ "\nError: " ++ e)], [Eff.makedirs (dirnameOf jp)])
    | none => (msgs, [Eff.makedirs (dirnameOf jp), Eff.writeJson jp entries])

/-- The enabled-cheat union of `pending_cheats` (a set, accumulated here in
first-seen order; only its sorted form is observable). -/
def enabledNames (pending : List (String × List (String × Bool))) :
    List String :=
  pending.foldl
    (fun acc p =>
      p.2.foldl (fun a q => if q.2 && !a.contains q.1 then a ++ [q.1] else a)
        acc)
    []

/-- The full text written to `enabled.txt` for a set of enabled cheat
names: one line per name, alphabetically sorted, each
`BUILD_ID<name Cheat>\n` (source lines 279-284). -/
def enabledFileContent (names : List String) : String :=
  String.join ((sortLt (fun a b => strLt a.data b.data) names).map
    (fun n => BUILD_ID ++ "<" ++ n ++ " Cheat>\n"))

/-- `DreamSort._apply_cheat_selections_threaded` (source lines 243-304).
A failure is modelled at the `enabled.txt` write, after the directory
creation. -/
def applyCheatSel (env : Env) (special : Option String)
    (pending : List (String × List (String × Bool))) : List Msg × List Eff :=
  let folder := match special with | some s => s | none => "cheats"
  let path := joinPath (joinPath env.mods_path folder) "enabled.txt"
  let errMsgs := fun e => [Msg.error
    ("Could not write cheats to enabled.txt.\n\nPath: " ++ path ++
      "\nError: " ++ e)]
  if pending = [] then
    match env.cheatWriteFail with
    | some e => (errMsgs e, [Eff.makedirs (dirnameOf path)])
    | none =>
        ([Msg.status "No cheats selected, cleared enabled.txt."],
          [Eff.makedirs (dirnameOf path), Eff.truncateFile path])
  else
    let names := enabledNames pending
    let content := enabledFileContent names
    match env.cheatWriteFail with
    | some e =>
        ([Msg.status "Phase 4: Applying Cheat Selections...", Msg.error
          (("Could not write cheats to enabled.txt.\n\nPath: " ++ path ++
            "\nError: " ++ e))], [Eff.makedirs (dirnameOf path)])
    | none =>
        ([Msg.status "Phase 4: Applying Cheat Selections...",
          Msg.status (if names.length = 0 then
            "No cheats enabled - created empty enabled.txt"
          else
            "Written " ++ toString names.length ++ " cheats to enabled.txt")],
          [Eff.makedirs (dirnameOf path), Eff.writeCheats path content])

/-- The tail of the pipeline after the phase-2 loop (source lines
426-429): the `mods.json` update, the cheat-selection write and the final
`done`, or nothing further when phase 2 halted. -/
def afterPhase2 (env : Env)
    (pending : List (String × List (String × Bool)))
    (special : Option String) (r2 : P2Result) : List Msg × List Eff :=
  match r2.err with
  | some _ => (r2.msgs, r2.effs)
  | none =>
    let j := updateModsJson env r2.records
    let c := applyCheatSel env special pending
    (r2.msgs ++ j.1 ++ c.1 ++ [Msg.done], r2.effs ++ j.2 ++ c.2)

/-- Phase 2 given the outcome of the special-folder step: either its
rename failed (fatal), or the loop runs on the remaining temp map. -/
def afterSpecial (env : Env) (config : List (String × Bool))
    (pending : List (String × List (String × Bool)))
    (cheatOnly : List String) (special : Option String) (total : Nat)
    (r1 : P1Result)
    (sp : List Eff × List (String × String) × Option RenameErr) :
    List Msg × List Eff :=
  match sp with
  | (spEffs, _, some e) =>
      (r1.msgs ++ [Msg.status "Phase 2: Applying new load order..."] ++
        [Msg.error (p2ErrMsg e)], r1.effs ++ spEffs)
  | (spEffs, spTm, none) =>
      afterPhase2 env pending special
        (phase2Loop env special cheatOnly spTm total config 0 r1.opsDone
          (r1.msgs ++ [Msg.status "Phase 2: Applying new load order..."])
          (r1.effs ++ spEffs) [])

/-- The pipeline after phase 1: stop on a phase-1 failure, otherwise run
the special-folder step and continue. -/
def afterPhase1 (env : Env) (config : List (String × Bool))
    (pending : List (String × List (String × Bool)))
    (cheatOnly : List String) (special : Option String) (total : Nat)
    (r1 : P1Result) : List Msg × List Eff :=
  match r1.err with
  | some _ => (r1.msgs, r1.effs)
  | none =>
    afterSpecial env config pending cheatOnly special total r1
      (specialStep env special r1.tempMap)

/-- Model of `DreamSort.apply_new_order_threaded`: the full message trace
and effect list of one apply run.  `config` is `ordered_mods_config` in
iteration order, `cheatOnly` and `special` are the analyzer state from the
preceding scan. -/
def apply_new_order_threaded (env : Env) (config : List (String × Bool))
    (pending : List (String × List (String × Bool)))
    (cheatOnly : List String) (special : Option String) :
    List Msg × List Eff :=
  if env.mods_path = "" then ([Msg.error "Mods path not set."], [])
  else
    match env.listDirs with
    | Except.error e =>
        ([Msg.error ("Failed to list mod directories: " ++ e)], [])
    | Except.ok current =>
      afterPhase1 env config pending cheatOnly special
        (current.length + config.length)
        (phase1Go env (current.length + config.length) current 0 []
          [Msg.status "Phase 1: Backing up current mods..."] [])

/-!
## Cheat catalog: parsing (source lines 1057-1096)

`DreamSortApp._initialize_pending_cheats` reads the central `enabled.txt`
with `re.search(r"<(.*?) Cheat>", line)` per line, and parses each cheat
file's content with `re.findall(r"(\[.*?\])\s*([\s\S]*?)(?=\n\s*\[|$)",
content)`.  Both regexes are modelled operationally below; the block
pattern's behaviour (leftmost header `[`…`]` on one line, greedy
whitespace, lazy body up to a lookahead `\n\s*\[` or `$`, where `$` also
matches just before a final trailing newline) was confirmed against
CPython on the corner cases the theorems use.
-/

/-- `\[.*?\]` continuation: the shortest stretch of non-newline characters
up to a closing `]` (the inner text, and what follows the `]`). -/
def lineClose : List Char → Option (List Char × List Char)
  | [] => none
  | c :: t =>
    if c = ']' then some ([], t)
    else if c = '\n' then none
    else
      match lineClose t with
      | some (inner, rest) => some (c :: inner, rest)
      | none => none

/-- The leftmost match of `\[.*?\]`: the full bracketed header (brackets
included) and the remainder after it. -/
def findHeader : List Char → Option (List Char × List Char)
  | [] => none
  | c :: t =>
    if c = '[' then
      match lineClose t with
      | some (inner, rest) => some ('[' :: (inner ++ [']']), rest)
      | none => findHeader t
    else findHeader t

/-- The lookahead alternative `\n\s*\[` after its initial `\n`: optional
whitespace then `[`. -/
def wsThenBracket : List Char → Bool
  | [] => false
  | c :: t => if c = '[' then true else if pyWs c then wsThenBracket t else false

/-- The lookahead `(?=\n\s*\[|$)` at a position whose remaining text is the
argument (`$` matches at the end or just before a final trailing newline). -/
def lookaheadB : List Char → Bool
  | [] => true
  | ['\n'] => true
  | '\n' :: t => wsThenBracket t
  | _ => false

/-- `([\s\S]*?)` before the lookahead: the shortest body such that the
lookahead holds right after it; returns the body and the remaining text. -/
def takeBody : List Char → List Char × List Char
  | [] => ([], [])
  | c :: t =>
    if lookaheadB (c :: t) then ([], c :: t)
    else
      let p := takeBody t
      (c :: p.1, p.2)

theorem lineClose_length :
    ∀ cs inner rest, lineClose cs = some (inner, rest) →
      rest.length < cs.length := by
  intro cs
  induction cs with
  | nil => intro inner rest h; simp [lineClose] at h
  | cons c t ih =>
      intro inner rest h
      by_cases hc : c = ']'
      · simp [lineClose, hc] at h
        obtain ⟨h1, h2⟩ := h
        subst h2
        simp only [List.length_cons]
        omega
      · by_cases hn : c = '\n'
        · simp [lineClose, hc, hn] at h
        · simp [lineClose, hc, hn] at h
          match ht : lineClose t with
          | none => rw [ht] at h; simp at h
          | some (i2, r2) =>
              rw [ht] at h
              simp at h
              have := ih i2 r2 ht
              obtain ⟨h1, h2⟩ := h
              subst h2
              simp only [List.length_cons]
              omega

theorem findHeader_length :
    ∀ cs hdr rest, findHeader cs = some (hdr, rest) →
      rest.length < cs.length := by
  intro cs
  induction cs with
  | nil => intro hdr rest h; simp [findHeader] at h
  | cons c t ih =>
      intro hdr rest h
      by_cases hc : c = '['
      · simp [findHeader, hc] at h
        match ht : lineClose t with
        | none =>
            rw [ht] at h
            have := ih hdr rest h
            simp; omega
        | some (i2, r2) =>
            rw [ht] at h
            simp at h
            have := lineClose_length t i2 r2 ht
            obtain ⟨h1, h2⟩ := h
            subst h2
            simp only [List.length_cons]
            omega
      · simp [findHeader, hc] at h
        have := ih hdr rest h
        simp only [List.length_cons]
        omega

theorem takeBody_length :
    ∀ cs, (takeBody cs).2.length ≤ cs.length := by
  intro cs
  induction cs with
  | nil => simp [takeBody]
  | cons c t ih =>
      by_cases h : lookaheadB (c :: t)
      · simp [takeBody, h]
      · simp [takeBody, h]
        omega

theorem dropWhile_length_le (p : Char → Bool) (l : List Char) :
    (List.dropWhile p l).length ≤ l.length := length_dropWhile_le p l

/-- `re.findall(r"(\[.*?\])\s*([\s\S]*?)(?=\n\s*\[|$)", content)`: the list
of (bracketed header, body) matches, scanning left to right. -/
def findBlocksF : Nat → List Char → List (List Char × List Char)
  | 0, _ => []
  | fuel + 1, cs =>
      match findHeader cs with
      | none => []
      | some (hdr, rest) =>
        let afterWs := rest.dropWhile pyWs
        let p := takeBody afterWs
        (hdr, p.1) :: findBlocksF fuel p.2

/-- All `(\[.*?\])((?=...)...)` blocks of a cheat file: every recursive
step consumes at least one character (`findHeader` consumes the header),
so the bound `cs.length` computes all blocks. -/
def findBlocks (cs : List Char) : List (List Char × List Char) :=
  findBlocksF cs.length cs

/-- `name_with_brackets.strip()[1:-1]`: the text between the brackets. -/
def innerName (hdr : List Char) : String :=
  ⟨((pyStrip hdr).drop 1).dropLast⟩

/-- The parsing of one cheat file's content into an accumulating cheat
dict (source lines 1079-1096): every block whose inner header text is
non-empty and whose body is non-empty after trimming is stored under its
(untrimmed) inner name; the stored flag is membership of the name in the
globally enabled set; a later same-named block overwrites an earlier one. -/
def cheatStep (enabledSet : List String) (acc : List (String × Bool))
    (content : String) : List (String × Bool) :=
  (findBlocks content.data).foldl
    (fun a p =>
      let name := innerName p.1
      if name ≠ "" ∧ pyStrip p.2 ≠ [] then
        updAssoc a name (enabledSet.contains name)
      else a)
    acc

/-- The whole-corpus parse: one `cheatStep` per cheat file, starting from
the empty dict. -/
def parseCheats (enabledSet : List String) (contents : List String) :
    List (String × Bool) :=
  contents.foldl (cheatStep enabledSet) []

/-- `re.search(r"<(.*?) Cheat>", line)` continuation after a `<`: the
shortest stretch of non-newline characters followed by the literal
`" Cheat>"` (the captured group). -/
def matchCheatAt : List Char → Option (List Char)
  | [] => none
  | c :: t =>
    if (" Cheat>".data).isPrefixOf (c :: t) then some []
    else if c = '\n' then none
    else (matchCheatAt t).map (fun g => c :: g)

/-- The leftmost match of `<(.*?) Cheat>` in a line: the captured group. -/
def searchCheat : List Char → Option (List Char)
  | [] => none
  | c :: t =>
    if c = '<' then
      match matchCheatAt t with
      | some g => some g
      | none => searchCheat t
    else searchCheat t

/-- `loadEnabledSet`: the globally-enabled cheat names parsed from the
central `enabled.txt` content (source lines 1057-1065): per line, the first
`<(.*?) Cheat>` group, stripped; accumulated as a set (first-seen order). -/
def loadEnabledSet (content : String) : List String :=
  (splitOnChar '\n' content.data).foldl
    (fun acc line =>
      match searchCheat line with
      | none => acc
      | some g =>
        let name : String := ⟨pyStrip g⟩
        if acc.contains name then acc else acc ++ [name])
    []

/-!
## Association-list lemmas (Python dict semantics)
-/

theorem lookupA_nil {α : Type} (k : String) : lookupA ([] : List (String × α)) k = none := rfl

theorem lookupA_cons {α : Type} (p : String × α) (t : List (String × α))
    (k : String) :
    lookupA (p :: t) k = if p.1 = k then some p.2 else lookupA t k := rfl

theorem lookupA_mapUpd {α : Type} (k : String) (v : α) :
    ∀ l : List (String × α),
      lookupA (l.map (fun p => if p.1 = k then (k, v) else p)) k =
        if (lookupA l k).isSome then some v else none := by
  intro l
  induction l with
  | nil => rfl
  | cons p t ih =>
      rw [List.map_cons]
      by_cases hp : p.1 = k
      · rw [if_pos hp, lookupA_cons, lookupA_cons, if_pos hp]
        simp
      · rw [if_neg hp, lookupA_cons, lookupA_cons, if_neg hp, if_neg hp, ih]

theorem lookupA_appendOne {α : Type} (k : String) (v : α) :
    ∀ l : List (String × α), lookupA l k = none →
      lookupA (l ++ [(k, v)]) k = some v := by
  intro l
  induction l with
  | nil => intro _; simp [lookupA]
  | cons p t ih =>
      intro h
      rw [lookupA_cons] at h
      rw [List.cons_append, lookupA_cons]
      by_cases hp : p.1 = k
      · rw [if_pos hp] at h
        exact absurd h (by simp)
      · rw [if_neg hp] at h
        rw [if_neg hp]
        exact ih h

theorem lookupA_any_false {α : Type} (k : String) :
    ∀ l : List (String × α), l.any (fun p => p.1 = k) = false →
      lookupA l k = none := by
  intro l
  induction l with
  | nil => intro _; rfl
  | cons p t ih =>
      intro h
      rw [List.any_cons] at h
      rcases Bool.or_eq_false_iff.mp h with ⟨h1, h2⟩
      rw [lookupA_cons, if_neg (by simpa using h1)]
      exact ih h2

theorem lookupA_any_true {α : Type} (k : String) :
    ∀ l : List (String × α), l.any (fun p => p.1 = k) = true →
      (lookupA l k).isSome = true := by
  intro l
  induction l with
  | nil => intro h; simp at h
  | cons p t ih =>
      intro h
      rw [List.any_cons] at h
      rw [lookupA_cons]
      by_cases hp : p.1 = k
      · rw [if_pos hp]; rfl
      · rw [if_neg hp]
        rcases Bool.or_eq_true_iff.mp h with h1 | h2
        · exact absurd (by simpa using h1) hp
        · exact ih h2

theorem lookupA_updAssoc_self {α : Type} (l : List (String × α)) (k : String)
    (v : α) : lookupA (updAssoc l k v) k = some v := by
  unfold updAssoc
  by_cases h : l.any (fun p => p.1 = k)
  · rw [if_pos h, lookupA_mapUpd, if_pos (lookupA_any_true k l h)]
  · rw [if_neg h]
    exact lookupA_appendOne k v l
      (lookupA_any_false k l (Bool.not_eq_true _ ▸ (by simpa using h)))

theorem lookupA_updAssoc_ne {α : Type} (l : List (String × α)) (k k' : String)
    (v : α) (h : ¬ k' = k) : lookupA (updAssoc l k v) k' = lookupA l k' := by
  unfold updAssoc
  by_cases hp : l.any (fun p => p.1 = k)
  · rw [if_pos hp]
    clear hp
    induction l with
    | nil => rfl
    | cons p t ih =>
        rw [List.map_cons, lookupA_cons, lookupA_cons]
        by_cases hq : p.1 = k
        · rw [if_pos hq]
          have h1 : ¬ (k, v).1 = k' := fun hh => h (hh.symm)
          have h2 : ¬ p.1 = k' := by rw [hq]; exact fun hh => h hh.symm
          rw [if_neg h1, if_neg h2, ih]
        · rw [if_neg hq]
          by_cases hr : p.1 = k'
          · rw [if_pos hr, if_pos hr]
          · rw [if_neg hr, if_neg hr, ih]
  · rw [if_neg hp]
    clear hp
    induction l with
    | nil =>
        rw [List.nil_append, lookupA_cons,
          if_neg (show ¬ (k, v).1 = k' from fun hh => h hh.symm)]
    | cons p t ih =>
        rw [List.cons_append, lookupA_cons, lookupA_cons]
        by_cases hr : p.1 = k'
        · rw [if_pos hr, if_pos hr]
        · rw [if_neg hr, if_neg hr]
          exact ih

theorem lookupA_none_iff {α : Type} (k : String) :
    ∀ l : List (String × α), lookupA l k = none ↔ k ∉ l.map Prod.fst := by
  intro l
  induction l with
  | nil => simp [lookupA]
  | cons p t ih =>
      rw [lookupA_cons, List.map_cons]
      by_cases hp : p.1 = k
      · rw [if_pos hp]
        simp [hp]
      · rw [if_neg hp]
        rw [ih]
        simp only [List.mem_cons]
        constructor
        · intro ha hb
          rcases hb with hb | hb
          · exact hp hb.symm
          · exact ha hb
        · intro ha hb
          exact ha (Or.inr hb)

theorem lookupA_append {α : Type} (k : String) :
    ∀ l1 l2 : List (String × α),
      lookupA (l1 ++ l2) k =
        match lookupA l1 k with
        | some v => some v
        | none => lookupA l2 k := by
  intro l1 l2
  induction l1 with
  | nil => simp [lookupA]
  | cons p t ih =>
      rw [List.cons_append, lookupA_cons, lookupA_cons]
      by_cases hp : p.1 = k
      · simp only [if_pos hp]
      · simp only [if_neg hp]
        exact ih

/-!
## C5: the naming codec
-/

theorem markMatchB_run (tk : List Char) (hm : tk ≠ [])
    (hall : ∀ c ∈ tk, markChar c = true) : markMatchB tk = true := by
  have hex : tk.getLast? = some (tk.getLast hm) := List.getLast?_eq_getLast tk hm
  have hc : markChar (tk.getLast hm) = true := hall _ (List.getLast_mem hm)
  have hne : ¬ tk.getLast hm = '_' := by
    intro hh
    rw [hh] at hc
    simp [markChar] at hc
  unfold markMatchB
  rw [hex]
  simp only [if_neg hne]
  exact List.all_eq_true.mpr hall

theorem markMatchB_run_us (tk : List Char) (hm : tk ≠ [])
    (hall : ∀ c ∈ tk, markChar c = true) : markMatchB (tk ++ ['_']) = true := by
  unfold markMatchB
  rw [List.getLast?_concat]
  simp only [List.dropLast_concat, eq_self_iff_true, if_true]
  simp only [Bool.and_eq_true, decide_eq_true_eq]
  refine ⟨?_, List.all_eq_true.mpr hall⟩
  simpa using hm

theorem digitMatchB_run (tk : List Char) (hm : tk ≠ [])
    (hall : ∀ c ∈ tk, Char.isDigit c = true) :
    digitMatchB (tk ++ ['_']) = true := by
  unfold digitMatchB
  rw [List.getLast?_concat, List.dropLast_concat]
  simp only [Bool.and_eq_true, decide_eq_true_eq]
  have hlen : 0 < tk.length := List.length_pos.mpr hm
  refine ⟨⟨?_, List.all_eq_true.mpr hall⟩, trivial⟩
  simp only [List.length_append, List.length_cons, List.length_nil]
  omega

theorem stripPrefixL_shape (cs : List Char) :
    ∃ pre : List Char, cs = pre ++ stripPrefixL cs ∧
      (pre = [] ∨ digitMatchB pre = true ∨ markMatchB pre = true) := by
  have hmark := List.takeWhile_append_dropWhile (p := markChar) (l := cs)
  have hdig := List.takeWhile_append_dropWhile (p := Char.isDigit) (l := cs)
  have halld : ∀ c ∈ cs.takeWhile Char.isDigit, Char.isDigit c = true :=
    fun _ hc => List.mem_takeWhile_imp hc
  have hallm : ∀ c ∈ cs.takeWhile markChar, markChar c = true :=
    fun _ hc => List.mem_takeWhile_imp hc
  unfold stripPrefixL
  by_cases hd : cs.takeWhile Char.isDigit = []
  · rw [if_neg (not_ne_iff.mpr hd)]
    by_cases hm : cs.takeWhile markChar = []
    · rw [if_neg (not_ne_iff.mpr hm)]
      exact ⟨[], rfl, Or.inl rfl⟩
    · rw [if_pos hm]
      rcases hrest : cs.dropWhile markChar with _ | ⟨c, t⟩
      · rw [hrest] at hmark
        exact ⟨cs.takeWhile markChar, hmark.symm,
          Or.inr (Or.inr (markMatchB_run _ hm hallm))⟩
      · rw [hrest] at hmark
        show ∃ pre, (cs = pre ++ (if c = '_' then t else c :: t)) ∧
          (pre = [] ∨ digitMatchB pre = true ∨ markMatchB pre = true)
        by_cases hu : c = '_'
        · rw [if_pos hu]
          refine ⟨cs.takeWhile markChar ++ ['_'], ?_, Or.inr (Or.inr
            (markMatchB_run_us _ hm hallm))⟩
          rw [hu] at hmark
          exact hmark.symm.trans (by simp)
        · rw [if_neg hu]
          exact ⟨cs.takeWhile markChar, hmark.symm, Or.inr (Or.inr
            (markMatchB_run _ hm hallm))⟩
  · rw [if_pos hd]
    rcases hrest : cs.dropWhile Char.isDigit with _ | ⟨c, t⟩
    · exact ⟨[], rfl, Or.inl rfl⟩
    · rw [hrest] at hdig
      show ∃ pre, (cs = pre ++ (if c = '_' then t else cs)) ∧
        (pre = [] ∨ digitMatchB pre = true ∨ markMatchB pre = true)
      by_cases hu : c = '_'
      · rw [if_pos hu]
        refine ⟨cs.takeWhile Char.isDigit ++ ['_'], ?_, Or.inr (Or.inl
          (digitMatchB_run _ hd halld))⟩
        rw [hu] at hdig
        exact hdig.symm.trans (by simp)
      · rw [if_neg hu]
        exact ⟨[], rfl, Or.inl rfl⟩

/-- C5: `strip_prefix` removes at most one leading match — one-or-more
digits followed by `_`, or one-or-more characters from `{., !, ~}`
optionally followed by `_` — returns the name unchanged when neither
alternative matches at position 0, and satisfies the five concrete
examples of the claim. -/
theorem C5_strip_prefix_codec :
    (∀ name : String, ∃ pre : List Char,
        name.data = pre ++ ( strip_prefix name).data ∧
          (pre = [] ∨ digitMatchB pre = true ∨ markMatchB pre = true)) ∧
    (∀ name : String, leadMatchB name.data = false → strip_prefix name = name) ∧
    strip_prefix "01_Foo" = "Foo" ∧ strip_prefix "~Foo" = "Foo" ∧
    strip_prefix ".Foo" = "Foo" ∧ strip_prefix "!_Foo" = "Foo" ∧
    strip_prefix "Foo" = "Foo" := by
  refine ⟨?_, ?_, by decide, by decide, by decide, by decide, by decide⟩
  · intro name
    exact stripPrefixL_shape name.data
  · intro name h
    have : stripPrefixL name.data = name.data := by
      unfold leadMatchB at h
      unfold stripPrefixL
      by_cases hd : name.data.takeWhile Char.isDigit = []
      · simp only [hd, ne_eq, not_true_eq_false, if_false]
        match hcs : name.data with
        | [] => simp
        | c :: t =>
            rw [hcs] at h
            simp only [List.head?] at h
            have hmark : markChar c = false := by
              rcases Bool.or_eq_false_iff.mp h with ⟨_, h2⟩
              exact h2
            simp [List.takeWhile_cons, hmark]
      · simp only [ne_eq, hd, not_false_eq_true, if_true]
        rcases Bool.or_eq_false_iff.mp h with ⟨h1, _⟩
        rcases Bool.and_eq_false_iff.mp h1 with h1a | h1b
        · simp [hd] at h1a
        · match hrest : name.data.dropWhile Char.isDigit with
          | [] => rfl
          | c :: t =>
              rw [hrest] at h1b
              simp at h1b
              simp [h1b]
    show String.mk (stripPrefixL name.data) = name
    rw [this]

/-!
## C9: the enabled.txt round trip
-/

/-- C9: writing the central enable-list file for the enabled cheat set
`{X, A}` produces exactly the two sorted `BUILD_ID<name Cheat>` lines, the
cheat-selection writer writes exactly that content, and re-parsing the
content through `loadEnabledSet` yields exactly the set `{A, X}`. -/
theorem C9_enabled_roundtrip :
    enabledFileContent ["X", "A"] =
      "FB08F1D20FD1204F-<A Cheat>\nFB08F1D20FD1204F-<X Cheat>\n" ∧
    (applyCheatSel
        ⟨"m", Except.ok [], fun _ _ => none, none, none, none⟩ none
        [("M", [("X", true), ("A", true)])]).2 =
      [Eff.makedirs "m/cheats",
        Eff.writeCheats "m/cheats/enabled.txt"
          (enabledFileContent ["X", "A"])] ∧
    loadEnabledSet (enabledFileContent ["X", "A"]) = ["A", "X"] := by
  refine ⟨by decide, by decide, by decide⟩

/-- Witness for `C5_strip_prefix_codec`: the no-match case at `Bar`. -/
theorem C5_strip_prefix_codec_witness :
    leadMatchB "Bar".data = false ∧ strip_prefix "Bar" = "Bar" :=
  ⟨by decide, C5_strip_prefix_codec.2.1 "Bar" (by decide)⟩

/-!
## C1: phase-2 final naming
-/

/-- Modelled from the claim's wording (the reference the code is checked
against): iterating `desiredOrder` with the counter starting at 1,
skipping the special folder and mods absent from the temp map; a
cheat-only or disabled mod becomes `~` + cleanName with flag `false`; an
enabled non-cheat-only mod takes the two-digit zero-padded counter value,
`_`, cleanName, flag `true`, and the counter advances. -/
def specFinalRecords (special : Option String) (cheatOnly : List String)
    (tempMap : List (String × String)) :
    List (String × Bool) → Nat → List (String × Bool)
  | [], _ => []
  | (m, en) :: rest, k =>
    if some m = special then specFinalRecords special cheatOnly tempMap rest k
    else
      match lookupA tempMap ( strip_prefix m) with
      | none => specFinalRecords special cheatOnly tempMap rest k
      | some _ =>
        if cheatOnly.contains m || !en then
          ("~" ++ strip_prefix m, false) ::
            specFinalRecords special cheatOnly tempMap rest k
        else
          (pad2 k ++ "_" ++ strip_prefix m, true) ::
            specFinalRecords special cheatOnly tempMap rest (k + 1)

theorem phase2Loop_records (env : Env) (special : Option String)
    (cheatOnly : List String) (tempMap : List (String × String)) (total : Nat) :
    ∀ (config : List (String × Bool)) (idx ops : Nat) (msgs : List Msg)
      (effs : List Eff) (recs : List (String × Bool)),
      (phase2Loop env special cheatOnly tempMap total config idx ops msgs effs
          recs).err = none →
      (phase2Loop env special cheatOnly tempMap total config idx ops msgs effs
          recs).records =
        recs ++ specFinalRecords special cheatOnly tempMap config (idx + 1) := by
  intro config
  induction config with
  | nil =>
      intro idx ops msgs effs recs _
      simp [phase2Loop, specFinalRecords]
  | cons p rest ih =>
      rcases p with ⟨m, en⟩
      intro idx ops msgs effs recs h
      by_cases hs : some m = special
      · rw [phase2Loop, if_pos hs] at h ⊢
        rw [specFinalRecords, if_pos hs]
        exact ih idx ops msgs effs recs h
      · rw [phase2Loop, if_neg hs] at h ⊢
        rw [specFinalRecords, if_neg hs]
        simp only [] at h ⊢
        rcases hl : lookupA tempMap ( strip_prefix m) with _ | temp
        · rw [hl] at h
          exact ih idx ops msgs effs recs h
        · rw [hl] at h
          simp only [] at h ⊢
          by_cases hc : (cheatOnly.contains m || !en) = true
          · simp only [hc, if_true] at h ⊢
            rcases hf : env.renameFail temp ("~" ++ strip_prefix m) with _ | e
            · rw [hf] at h
              refine (ih idx (ops + 1) _ _ _ ?_).trans ?_
              · exact h
              · simp
            · rw [hf] at h
              exact absurd h (by exact fun hh => Option.noConfusion hh)
          · simp only [hc, Bool.false_eq_true, if_false] at h ⊢
            rcases hf : env.renameFail temp
                (pad2 (idx + 1) ++ "_" ++ strip_prefix m) with _ | e
            · rw [hf] at h
              refine (ih (idx + 1) (ops + 1) _ _ _ ?_).trans ?_
              · exact h
              · simp
            · rw [hf] at h
              exact absurd h (by exact fun hh => Option.noConfusion hh)

/-- C1: in phase 2 (iterating `desiredOrder`, skipping the special cheats
folder and mods absent from the temp map), a cheat-only or disabled mod is
recorded as `~` + cleanName with flag `false`, and every other mod gets the
two-digit zero-padded value of a counter that starts at 1 on each run and
is incremented once per enabled non-cheat-only mod, followed by `_` +
cleanName, with flag `true`: the records the loop produces equal the
reference `specFinalRecords` written from that rule. -/
theorem C1_phase2_final_naming :
    ∀ (env : Env) (special : Option String) (cheatOnly : List String)
      (tempMap : List (String × String)) (total : Nat)
      (config : List (String × Bool)) (ops : Nat) (msgs : List Msg)
      (effs : List Eff),
      (phase2Loop env special cheatOnly tempMap total config 0 ops msgs effs
          []).err = none →
      (phase2Loop env special cheatOnly tempMap total config 0 ops msgs effs
          []).records =
        specFinalRecords special cheatOnly tempMap config 1 := by
  intro env special cheatOnly tempMap total config ops msgs effs h
  have := phase2Loop_records env special cheatOnly tempMap total config 0 ops
    msgs effs [] h
  simpa using this

/-- Witness for `C1_phase2_final_naming` on a concrete run: one enabled
mod, one disabled mod, one mod with no temp entry. -/
theorem C1_phase2_final_naming_witness :
    (phase2Loop ⟨"m", Except.ok [], fun _ _ => none, none, none, none⟩ none
        ["Chee"] [("Foo", "Foo__temp_rename__"), ("Bar", "Bar__temp_rename__"),
          ("Chee", "Chee__temp_rename__")] 6
        [("02_Foo", true), ("~Bar", false), ("Gone", true), ("Chee", true)]
        0 0 [] [] []).records =
      specFinalRecords none ["Chee"]
        [("Foo", "Foo__temp_rename__"), ("Bar", "Bar__temp_rename__"),
          ("Chee", "Chee__temp_rename__")]
        [("02_Foo", true), ("~Bar", false), ("Gone", true), ("Chee", true)] 1 :=
  C1_phase2_final_naming ⟨"m", Except.ok [], fun _ _ => none, none, none, none⟩
    none ["Chee"] _ 6 _ 0 [] [] (by decide)

/-!
## C10: duplicate clean names in phase 1
-/

/-- An apply environment whose mod root holds `01_Foo` and `02_Foo`, two
directories with the same clean name. -/
def dupEnv : Env :=
  ⟨"m", Except.ok ["01_Foo", "02_Foo"], fun _ _ => none, none, none, none⟩

/-- C10 counterexample: with `01_Foo` and `02_Foo` on disk and both in the
desired order, phase 1 leaves a single temp-map entry, but phase 2 looks
the shared temp name up successfully for *both* entries and performs *two*
renames out of `Foo__temp_rename__` — not at most one, as the claim
states. -/
theorem C10_duplicate_clean_counterexample :
    (phase1Go dupEnv 4 ["01_Foo", "02_Foo"] 0 [] [] []).tempMap =
      [("Foo", "Foo__temp_rename__")] ∧
    ((apply_new_order_threaded dupEnv [("01_Foo", true), ("02_Foo", true)] []
        [] none).2.countP
      (fun e => match e with
        | Eff.rename src _ => src = "Foo__temp_rename__"
        | _ => false)) = 2 := by
  exact ⟨by decide, by decide⟩

/-- C10 (amended): the phase-1 temp name depends only on the clean name and
the temp map is keyed by clean name, so the later of two same-clean-name
mods overwrites the earlier's (identical) entry; but the phase-2 lookup is
non-destructive, so both duplicates find the single temp entry and both
are renamed from the same temp source. -/
theorem C10_phase1_temp_collision :
    (∀ (env : Env) (total : Nat) (mods : List String) (ops : Nat)
        (tm : List (String × String)) (msgs : List Msg) (effs : List Eff),
        (∀ m ∈ mods,
          env.renameFail m ( strip_prefix m ++ TEMP_SUFFIX) = none) →
        (phase1Go env total mods ops tm msgs effs).tempMap =
          mods.foldl
            (fun a m => updAssoc a ( strip_prefix m)
              ( strip_prefix m ++ TEMP_SUFFIX)) tm) ∧
    (apply_new_order_threaded dupEnv [("01_Foo", true), ("02_Foo", true)] []
        [] none).2 =
      [Eff.rename "01_Foo" "Foo__temp_rename__",
        Eff.rename "02_Foo" "Foo__temp_rename__",
        Eff.rename "Foo__temp_rename__" "01_Foo",
        Eff.rename "Foo__temp_rename__" "02_Foo",
        Eff.makedirs "m/cheats", Eff.truncateFile "m/cheats/enabled.txt"] := by
  constructor
  · intro env total mods
    induction mods with
    | nil => intro ops tm msgs effs _; simp [phase1Go]
    | cons m rest ih =>
        intro ops tm msgs effs hok
        rw [phase1Go, hok m (by simp)]
        rw [List.foldl_cons]
        exact ih (ops + 1) _ _ _ (fun x hx => hok x (by simp [hx]))
  · decide

/-- Witness for `C10_phase1_temp_collision` at the duplicate-clean-name
listing. -/
theorem C10_phase1_temp_collision_witness :
    (phase1Go dupEnv 4 ["01_Foo", "02_Foo"] 0 [] [] []).tempMap =
      (["01_Foo", "02_Foo"].foldl
        (fun a m => updAssoc a ( strip_prefix m)
          ( strip_prefix m ++ TEMP_SUFFIX)) []) :=
  C10_phase1_temp_collision.1 dupEnv 4 ["01_Foo", "02_Foo"] 0 [] [] []
    (by decide)

/-!
## C4: phase-1 rename failure halts the run
-/

theorem phase1Go_fail (env : Env) (total : Nat) (bad : String) (e : RenameErr)
    (hbad :
      env.renameFail bad ( strip_prefix bad ++ TEMP_SUFFIX) = some e) :
    ∀ (pre : List String) (ops : Nat) (tm : List (String × String))
      (msgs : List Msg) (effs : List Eff) (rest : List String),
      (∀ m ∈ pre, env.renameFail m ( strip_prefix m ++ TEMP_SUFFIX) = none) →
      ∃ (app : List Msg) (tm' : List (String × String)) (ops' : Nat),
        phase1Go env total (pre ++ bad :: rest) ops tm msgs effs =
          ⟨msgs ++ app ++ [Msg.error (p1ErrMsg bad e)],
            effs ++ pre.map
              (fun m => Eff.rename m ( strip_prefix m ++ TEMP_SUFFIX)),
            tm', ops', some (p1ErrMsg bad e)⟩ ∧
          ∀ x ∈ app, ∃ v t, x = Msg.progress v t := by
  intro pre
  induction pre with
  | nil =>
      intro ops tm msgs effs rest _
      refine ⟨[Msg.progress ((ops : ℚ) / (total : ℚ))
        ("Backing up: '" ++ bad ++ "'")], tm, ops, ?_, ?_⟩
      · rw [List.nil_append, phase1Go, hbad]
        simp
      · intro x hx
        simp at hx
        exact ⟨_, _, hx⟩
  | cons m pre' ih =>
      intro ops tm msgs effs rest hok
      rw [List.cons_append, phase1Go, hok m (by simp)]
      obtain ⟨app, tm', ops', heq, happ⟩ :=
        ih (ops + 1) (updAssoc tm ( strip_prefix m)
          ( strip_prefix m ++ TEMP_SUFFIX))
          (msgs ++ [Msg.progress ((ops : ℚ) / (total : ℚ))
            ("Backing up: '" ++ m ++ "'")])
          (effs ++ [Eff.rename m ( strip_prefix m ++ TEMP_SUFFIX)]) rest
          (fun x hx => hok x (by simp [hx]))
      refine ⟨Msg.progress ((ops : ℚ) / (total : ℚ))
        ("Backing up: '" ++ m ++ "'") :: app, tm', ops', ?_, ?_⟩
      · rw [heq]
        simp
      · intro x hx
        rcases List.mem_cons.mp hx with hx | hx
        · exact ⟨_, _, hx⟩
        · exact happ x hx

/-- C4: when a phase-1 rename fails, the run halts at once with a single
fatal error message naming the offending mod (every earlier trace message
is a status or progress message), the only filesystem actions performed
are the temp renames of the mods listed before the failing one (so those
remain under `<cleanName>__temp_rename__` and nothing rolls them back),
and no phase-2/3/4 action or message — in particular no `done` — ever
happens. -/
theorem C4_phase1_failure_halts :
    ∀ (env : Env) (pre : List String) (bad : String) (rest : List String)
      (e : RenameErr) (config : List (String × Bool))
      (pending : List (String × List (String × Bool)))
      (cheatOnly : List String) (special : Option String),
      ¬ env.mods_path = "" →
      env.listDirs = Except.ok (pre ++ bad :: rest) →
      (∀ m ∈ pre, env.renameFail m ( strip_prefix m ++ TEMP_SUFFIX) = none) →
      env.renameFail bad ( strip_prefix bad ++ TEMP_SUFFIX) = some e →
      ∃ p : List Msg,
        (apply_new_order_threaded env config pending cheatOnly special).1 =
          p ++ [Msg.error (p1ErrMsg bad e)] ∧
        (∀ x ∈ p,
          x = Msg.status "Phase 1: Backing up current mods..." ∨
            ∃ v t, x = Msg.progress v t) ∧
        (apply_new_order_threaded env config pending cheatOnly special).2 =
          pre.map (fun m => Eff.rename m ( strip_prefix m ++ TEMP_SUFFIX)) ∧
        ∃ a b : String, p1ErrMsg bad e = a ++ (bad ++ b) := by
  intro env pre bad rest e config pending cheatOnly special hpath hlist hok
    hbad
  obtain ⟨app, tm', ops', heq, happ⟩ :=
    phase1Go_fail env ((pre ++ bad :: rest).length + config.length) bad e hbad
      pre 0 [] [Msg.status "Phase 1: Backing up current mods..."] [] rest hok
  rw [apply_new_order_threaded, if_neg hpath, hlist]
  simp only [heq, afterPhase1]
  refine ⟨Msg.status "Phase 1: Backing up current mods..." :: app, by simp,
    ?_, by simp, ?_⟩
  · intro x hx
    rcases List.mem_cons.mp hx with hx | hx
    · exact Or.inl hx
    · exact Or.inr (happ x hx)
  · unfold p1ErrMsg
    by_cases hp : e.perm
    · rw [if_pos hp]
      exact ⟨"Permission denied while renaming '",
        "'. Please close Ryujinx and try again. If the issue persists, try running dreamSort Mod Manager as an administrator.",
        (String.append_assoc _ _ _)⟩
    · rw [if_neg hp]
      exact ⟨"Could not rename mod '",
        "' to a temporary state (Phase 1). The process has been halted.\n\nError: " ++ e.text,
        by rw [← String.append_assoc, ← String.append_assoc]⟩

/-- Witness for `C4_phase1_failure_halts`: the second of three mods fails
with a permission error. -/
theorem C4_phase1_failure_halts_witness :
    ∃ p : List Msg,
      (apply_new_order_threaded
          ⟨"m", Except.ok ["01_A", "02_B", "03_C"],
            fun src _ => if src = "02_B" then some ⟨true, ""⟩ else none,
            none, none, none⟩
          [("01_A", true)] [] [] none).1 =
        p ++ [Msg.error (p1ErrMsg "02_B" ⟨true, ""⟩)] ∧
      (∀ x ∈ p,
        x = Msg.status "Phase 1: Backing up current mods..." ∨
          ∃ v t, x = Msg.progress v t) ∧
      (apply_new_order_threaded
          ⟨"m", Except.ok ["01_A", "02_B", "03_C"],
            fun src _ => if src = "02_B" then some ⟨true, ""⟩ else none,
            none, none, none⟩
          [("01_A", true)] [] [] none).2 =
        ["01_A"].map
          (fun m => Eff.rename m ( strip_prefix m ++ TEMP_SUFFIX)) ∧
      ∃ a b : String, p1ErrMsg "02_B" ⟨true, ""⟩ = a ++ ("02_B" ++ b) :=
  C4_phase1_failure_halts _ ["01_A"] "02_B" ["03_C"] ⟨true, ""⟩ [("01_A", true)]
    [] [] none (by decide) rfl (by decide) (by decide)

/-!
## C3: terminal events
-/

/-- Is a message an `error`? -/
def isErrorB : Msg → Bool
  | Msg.error _ => true
  | _ => false

/-- Is a message `done`? -/
def isDoneB : Msg → Bool
  | Msg.done => true
  | _ => false

/-- An apply environment whose `mods.json` write fails. -/
def jfEnv : Env :=
  ⟨"m", Except.ok [], fun _ _ => none, some "r/games/g/mods.json",
    some "disk full", none⟩

/-- C3 counterexample: when the phase-3 `mods.json` write fails, the run
emits an `error` event and then keeps going — the suffix of the trace
after the first `error` still contains further messages including `done`,
so `error` is not terminal and a single run emits both `error` and
`done`. -/
theorem C3_error_then_done_counterexample :
    (((apply_new_order_threaded jfEnv [] [] [] none).1.dropWhile
        (fun x => !(isErrorB x))).any isErrorB = true) ∧
    (((apply_new_order_threaded jfEnv [] [] [] none).1.dropWhile
        (fun x => !(isErrorB x))).tail.any isDoneB = true) := by
  exact ⟨by decide, by decide⟩

theorem phase1Go_shape (env : Env) (total : Nat) :
    ∀ (mods : List String) (ops : Nat) (tm : List (String × String))
      (msgs : List Msg) (effs : List Eff),
      ∃ app, (phase1Go env total mods ops tm msgs effs).msgs = msgs ++ app ∧
        (∀ x ∈ app, isDoneB x = false) ∧
        ∀ e, (phase1Go env total mods ops tm msgs effs).err = some e →
          ∃ app2, app = app2 ++ [Msg.error e] := by
  intro mods
  induction mods with
  | nil =>
      intro ops tm msgs effs
      refine ⟨[], by simp [phase1Go], by simp, fun e he => ?_⟩
      rw [phase1Go] at he
      exact absurd he (by exact fun hh => Option.noConfusion hh)
  | cons m rest ih =>
      intro ops tm msgs effs
      rw [phase1Go]
      rcases hf : env.renameFail m ( strip_prefix m ++ TEMP_SUFFIX) with _ | e0
      · obtain ⟨app, heq, hfree, herr⟩ := ih (ops + 1)
          (updAssoc tm ( strip_prefix m) ( strip_prefix m ++ TEMP_SUFFIX))
          (msgs ++ [Msg.progress ((ops : ℚ) / (total : ℚ))
            ("Backing up: '" ++ m ++ "'")])
          (effs ++ [Eff.rename m ( strip_prefix m ++ TEMP_SUFFIX)])
        refine ⟨Msg.progress ((ops : ℚ) / (total : ℚ))
          ("Backing up: '" ++ m ++ "'") :: app, ?_, ?_, ?_⟩
        · rw [heq]
          simp
        · intro x hx
          rcases List.mem_cons.mp hx with hx | hx
          · rw [hx]; rfl
          · exact hfree x hx
        · intro e he
          obtain ⟨app2, h2⟩ := herr e he
          exact ⟨Msg.progress ((ops : ℚ) / (total : ℚ))
            ("Backing up: '" ++ m ++ "'") :: app2, by rw [h2]; rfl⟩
      · refine ⟨[Msg.progress ((ops : ℚ) / (total : ℚ))
          ("Backing up: '" ++ m ++ "'"), Msg.error (p1ErrMsg m e0)], ?_, ?_, ?_⟩
        · simp
        · intro x hx
          rcases List.mem_cons.mp hx with hx | hx
          · rw [hx]; rfl
          · simp at hx
            rw [hx]; rfl
        · intro e he
          simp only [] at he
          have : p1ErrMsg m e0 = e := by
            have := Option.some.inj he
            exact this
          rw [← this]
          exact ⟨[Msg.progress ((ops : ℚ) / (total : ℚ))
            ("Backing up: '" ++ m ++ "'")], rfl⟩

theorem phase2Loop_shape (env : Env) (special : Option String)
    (cheatOnly : List String) (tempMap : List (String × String)) (total : Nat) :
    ∀ (config : List (String × Bool)) (idx ops : Nat) (msgs : List Msg)
      (effs : List Eff) (recs : List (String × Bool)),
      ∃ app, (phase2Loop env special cheatOnly tempMap total config idx ops
          msgs effs recs).msgs = msgs ++ app ∧
        (∀ x ∈ app, isDoneB x = false) ∧
        ∀ e, (phase2Loop env special cheatOnly tempMap total config idx ops
            msgs effs recs).err = some e →
          ∃ app2, app = app2 ++ [Msg.error e] := by
  intro config
  induction config with
  | nil =>
      intro idx ops msgs effs recs
      refine ⟨[], by simp [phase2Loop], by simp, fun e he => ?_⟩
      rw [phase2Loop] at he
      exact absurd he (by exact fun hh => Option.noConfusion hh)
  | cons p rest ih =>
      rcases p with ⟨m, en⟩
      intro idx ops msgs effs recs
      rw [phase2Loop]
      by_cases hs : some m = special
      · rw [if_pos hs]
        exact ih idx ops msgs effs recs
      · rw [if_neg hs]
        simp only []
        rcases hl : lookupA tempMap ( strip_prefix m) with _ | temp
        · exact ih idx ops msgs effs recs
        · simp only []
          by_cases hc : (cheatOnly.contains m || !en) = true
          · simp only [hc, if_true]
            rcases hf : env.renameFail temp ("~" ++ strip_prefix m) with _ | e0
            · obtain ⟨app, heq, hfree, herr⟩ := ih idx (ops + 1)
                (msgs ++ [Msg.progress ((ops : ℚ) / (total : ℚ))
                  ("Writing: '" ++ ("~" ++ strip_prefix m) ++ "'")])
                (effs ++ [Eff.rename temp ("~" ++ strip_prefix m)])
                (recs ++ [("~" ++ strip_prefix m, false)])
              refine ⟨Msg.progress ((ops : ℚ) / (total : ℚ))
                ("Writing: '" ++ ("~" ++ strip_prefix m) ++ "'") :: app,
                ?_, ?_, ?_⟩
              · rw [heq]; simp
              · intro x hx
                rcases List.mem_cons.mp hx with hx | hx
                · rw [hx]; rfl
                · exact hfree x hx
              · intro e he
                obtain ⟨app2, h2⟩ := herr e he
                exact ⟨Msg.progress ((ops : ℚ) / (total : ℚ))
                  ("Writing: '" ++ ("~" ++ strip_prefix m) ++ "'") :: app2,
                  by rw [h2]; rfl⟩
            · refine ⟨[Msg.progress ((ops : ℚ) / (total : ℚ))
                ("Writing: '" ++ ("~" ++ strip_prefix m) ++ "'"),
                Msg.error (p2ErrMsg e0)], by simp, ?_, ?_⟩
              · intro x hx
                rcases List.mem_cons.mp hx with hx | hx
                · rw [hx]; rfl
                · simp at hx
                  rw [hx]; rfl
              · intro e he
                simp only [] at he
                have := Option.some.inj he
                rw [← this]
                exact ⟨[Msg.progress ((ops : ℚ) / (total : ℚ))
                  ("Writing: '" ++ ("~" ++ strip_prefix m) ++ "'")], rfl⟩
          · simp only [hc, Bool.false_eq_true, if_false]
            rcases hf : env.renameFail temp
                (pad2 (idx + 1) ++ "_" ++ strip_prefix m) with _ | e0
            · obtain ⟨app, heq, hfree, herr⟩ := ih (idx + 1) (ops + 1)
                (msgs ++ [Msg.progress ((ops : ℚ) / (total : ℚ))
                  ("Writing: '" ++ (pad2 (idx + 1) ++ "_" ++ strip_prefix m) ++
                    "'")])
                (effs ++ [Eff.rename temp
                  (pad2 (idx + 1) ++ "_" ++ strip_prefix m)])
                (recs ++ [(pad2 (idx + 1) ++ "_" ++ strip_prefix m, true)])
              refine ⟨Msg.progress ((ops : ℚ) / (total : ℚ))
                ("Writing: '" ++ (pad2 (idx + 1) ++ "_" ++ strip_prefix m) ++
                  "'") :: app, ?_, ?_, ?_⟩
              · rw [heq]; simp
              · intro x hx
                rcases List.mem_cons.mp hx with hx | hx
                · rw [hx]; rfl
                · exact hfree x hx
              · intro e he
                obtain ⟨app2, h2⟩ := herr e he
                exact ⟨Msg.progress ((ops : ℚ) / (total : ℚ))
                  ("Writing: '" ++
                    (pad2 (idx + 1) ++ "_" ++ strip_prefix m) ++ "'") :: app2,
                  by rw [h2]; rfl⟩
            · refine ⟨[Msg.progress ((ops : ℚ) / (total : ℚ))
                ("Writing: '" ++ (pad2 (idx + 1) ++ "_" ++ strip_prefix m) ++
                  "'"), Msg.error (p2ErrMsg e0)], by simp, ?_, ?_⟩
              · intro x hx
                rcases List.mem_cons.mp hx with hx | hx
                · rw [hx]; rfl
                · simp at hx
                  rw [hx]; rfl
              · intro e he
                simp only [] at he
                have := Option.some.inj he
                rw [← this]
                exact ⟨[Msg.progress ((ops : ℚ) / (total : ℚ))
                  ("Writing: '" ++
                    (pad2 (idx + 1) ++ "_" ++ strip_prefix m) ++ "'")], rfl⟩

theorem updateModsJson_done_free (env : Env) (fl : List (String × Bool)) :
    ∀ x ∈ (updateModsJson env fl).1, isDoneB x = false := by
  unfold updateModsJson
  rcases env.mods_json_path with _ | jp
  · intro x hx
    simp at hx
    rw [hx]; rfl
  · simp only []
    rcases env.jsonWriteFail with _ | e
    · intro x hx
      simp at hx
      rcases hx with hx | hx <;> (rw [hx]; rfl)
    · intro x hx
      simp at hx
      rcases hx with hx | hx | hx <;> (rw [hx]; rfl)

theorem applyCheatSel_done_free (env : Env) (special : Option String)
    (pending : List (String × List (String × Bool))) :
    ∀ x ∈ (applyCheatSel env special pending).1, isDoneB x = false := by
  unfold applyCheatSel
  by_cases hp : pending = []
  · rw [if_pos hp]
    rcases env.cheatWriteFail with _ | e <;>
      · intro x hx
        simp at hx
        rw [hx]; rfl
  · rw [if_neg hp]
    rcases env.cheatWriteFail with _ | e
    · intro x hx
      simp at hx
      rcases hx with hx | hx <;> (rw [hx]; rfl)
    · intro x hx
      simp at hx
      rcases hx with hx | hx <;> (rw [hx]; rfl)

/-- Case split for the pipeline tail after phase 2. -/
theorem afterPhase2_tail (env : Env)
    (pending : List (String × List (String × Bool)))
    (special : Option String) (r2 : P2Result) :
    ((afterPhase2 env pending special r2).1 =
      (r2.msgs ++ (updateModsJson env r2.records).1 ++
        (applyCheatSel env special pending).1) ++ [Msg.done]) ∨
    (∃ e, r2.err = some e ∧
      (afterPhase2 env pending special r2).1 = r2.msgs) := by
  rw [afterPhase2]
  rcases he : r2.err with _ | e
  · refine Or.inl ?_
    show r2.msgs ++ (updateModsJson env r2.records).1 ++
        (applyCheatSel env special pending).1 ++ [Msg.done] =
      (r2.msgs ++ (updateModsJson env r2.records).1 ++
        (applyCheatSel env special pending).1) ++ [Msg.done]
    rfl
  · exact Or.inr ⟨e, rfl, rfl⟩

/-- Case split for the special-folder step outcome. -/
theorem afterSpecial_tail (env : Env) (config : List (String × Bool))
    (pending : List (String × List (String × Bool)))
    (cheatOnly : List String) (special : Option String) (total : Nat)
    (r1 : P1Result)
    (sp : List Eff × List (String × String) × Option RenameErr) :
    (∃ e, sp.2.2 = some e ∧
      (afterSpecial env config pending cheatOnly special total r1 sp).1 =
        (r1.msgs ++ [Msg.status "Phase 2: Applying new load order..."]) ++
          [Msg.error (p2ErrMsg e)]) ∨
    (sp.2.2 = none ∧
      afterSpecial env config pending cheatOnly special total r1 sp =
        afterPhase2 env pending special
          (phase2Loop env special cheatOnly sp.2.1 total config 0 r1.opsDone
            (r1.msgs ++ [Msg.status "Phase 2: Applying new load order..."])
            (r1.effs ++ sp.1) [])) := by
  rcases sp with ⟨spEffs, spTm, _ | e⟩
  · exact Or.inr ⟨rfl, rfl⟩
  · exact Or.inl ⟨e, rfl, rfl⟩

/-- C3 (amended): every apply run's trace either ends with `done`, or ends
with an `error` and contains no `done` at all.  The second case happens
exactly for failures up to phase 2 (path not set, listing failure, a
phase-1 or phase-2 rename failure); phase-3 and phase-4 write errors fall
into the first case — their `error` is followed by further messages and a
final `done` (see the counterexample). -/
theorem C3_terminal_events :
    ∀ (env : Env) (config : List (String × Bool))
      (pending : List (String × List (String × Bool)))
      (cheatOnly : List String) (special : Option String),
      (∃ p, (apply_new_order_threaded env config pending cheatOnly
          special).1 = p ++ [Msg.done]) ∨
      (∃ p e, (apply_new_order_threaded env config pending cheatOnly
          special).1 = p ++ [Msg.error e] ∧ ∀ x ∈ p, isDoneB x = false) := by
  intro env config pending cheatOnly special
  rw [apply_new_order_threaded]
  by_cases hpath : env.mods_path = ""
  · rw [if_pos hpath]
    exact Or.inr ⟨[], "Mods path not set.", rfl, by simp⟩
  · rw [if_neg hpath]
    rcases hld : env.listDirs with eld | current
    · exact Or.inr ⟨[], "Failed to list mod directories: " ++ eld, rfl,
        by simp⟩
    · obtain ⟨app1, heq1, hfree1, herr1⟩ :=
        phase1Go_shape env (current.length + config.length) current 0 []
          [Msg.status "Phase 1: Backing up current mods..."] []
      have main :
          (∃ p, (afterPhase1 env config pending cheatOnly special
              (current.length + config.length)
              (phase1Go env (current.length + config.length) current 0 []
                [Msg.status "Phase 1: Backing up current mods..."] [])).1 =
            p ++ [Msg.done]) ∨
          (∃ p e, (afterPhase1 env config pending cheatOnly special
              (current.length + config.length)
              (phase1Go env (current.length + config.length) current 0 []
                [Msg.status "Phase 1: Backing up current mods..."] [])).1 =
            p ++ [Msg.error e] ∧ ∀ x ∈ p, isDoneB x = false) := by
        rw [afterPhase1]
        rcases hr1e : (phase1Go env (current.length + config.length) current
            0 [] [Msg.status "Phase 1: Backing up current mods..."] []).err
          with _ | e1
        · rcases afterSpecial_tail env config pending cheatOnly special
              (current.length + config.length)
              (phase1Go env (current.length + config.length) current 0 []
                [Msg.status "Phase 1: Backing up current mods..."] [])
              (specialStep env special
                (phase1Go env (current.length + config.length) current 0 []
                  [Msg.status "Phase 1: Backing up current mods..."]
                  []).tempMap)
            with ⟨e2, _, heqA⟩ | ⟨_, heqA⟩
          · refine Or.inr ⟨(phase1Go env (current.length + config.length)
              current 0 [] [Msg.status "Phase 1: Backing up current mods..."]
              []).msgs ++ [Msg.status "Phase 2: Applying new load order..."],
              p2ErrMsg e2, heqA, ?_⟩
            intro x hx
            rcases List.mem_append.mp hx with hx | hx
            · rw [heq1] at hx
              rcases List.mem_append.mp hx with hx | hx
              · simp at hx
                rw [hx]; rfl
              · exact hfree1 x hx
            · simp at hx
              rw [hx]; rfl
          · obtain ⟨app2, heq2, hfree2, herr2⟩ :=
              phase2Loop_shape env special cheatOnly
                (specialStep env special
                  (phase1Go env (current.length + config.length) current 0 []
                    [Msg.status "Phase 1: Backing up current mods..."]
                    []).tempMap).2.1
                (current.length + config.length) config 0
                (phase1Go env (current.length + config.length) current 0 []
                  [Msg.status "Phase 1: Backing up current mods..."]
                  []).opsDone
                ((phase1Go env (current.length + config.length) current 0 []
                  [Msg.status "Phase 1: Backing up current mods..."] []).msgs
                  ++ [Msg.status "Phase 2: Applying new load order..."])
                ((phase1Go env (current.length + config.length) current 0 []
                  [Msg.status "Phase 1: Backing up current mods..."] []).effs
                  ++ (specialStep env special
                    (phase1Go env (current.length + config.length) current 0
                      [] [Msg.status "Phase 1: Backing up current mods..."]
                      []).tempMap).1) []
            rcases afterPhase2_tail env pending special
                (phase2Loop env special cheatOnly
                  (specialStep env special
                    (phase1Go env (current.length + config.length) current 0
                      [] [Msg.status "Phase 1: Backing up current mods..."]
                      []).tempMap).2.1
                  (current.length + config.length) config 0
                  (phase1Go env (current.length + config.length) current 0 []
                    [Msg.status "Phase 1: Backing up current mods..."]
                    []).opsDone
                  ((phase1Go env (current.length + config.length) current 0
                    [] [Msg.status "Phase 1: Backing up current mods..."]
                    []).msgs ++
                    [Msg.status "Phase 2: Applying new load order..."])
                  ((phase1Go env (current.length + config.length) current 0
                    [] [Msg.status "Phase 1: Backing up current mods..."]
                    []).effs ++
                    (specialStep env special
                      (phase1Go env (current.length + config.length) current
                        0 [] [Msg.status
                          "Phase 1: Backing up current mods..."]
                        []).tempMap).1) [])
              with hdone | ⟨e3, he3, heq3⟩
            · exact Or.inl ⟨_, (congrArg Prod.fst heqA).trans hdone⟩
            · obtain ⟨app2x, h2x⟩ := herr2 e3 he3
              refine Or.inr ⟨(phase1Go env (current.length + config.length)
                current 0 [] [Msg.status
                  "Phase 1: Backing up current mods..."] []).msgs ++
                [Msg.status "Phase 2: Applying new load order..."] ++ app2x,
                e3, ?_, ?_⟩
              · rw [(congrArg Prod.fst heqA).trans heq3, heq2, h2x]
                simp
              · intro x hx
                rcases List.mem_append.mp hx with hx | hx
                · rcases List.mem_append.mp hx with hx | hx
                  · rw [heq1] at hx
                    rcases List.mem_append.mp hx with hx | hx
                    · simp at hx
                      rw [hx]; rfl
                    · exact hfree1 x hx
                  · simp at hx
                    rw [hx]; rfl
                · refine hfree2 x ?_
                  rw [h2x]
                  exact List.mem_append.mpr (Or.inl hx)
        · obtain ⟨app2x, h2x⟩ := herr1 e1 hr1e
          refine Or.inr ⟨[Msg.status "Phase 1: Backing up current mods..."]
            ++ app2x, e1, ?_, ?_⟩
          · show (phase1Go env (current.length + config.length) current 0 []
              [Msg.status "Phase 1: Backing up current mods..."] []).msgs = _
            rw [heq1, h2x]
            simp
          · intro x hx
            rcases List.mem_append.mp hx with hx | hx
            · simp at hx
              rw [hx]; rfl
            · refine hfree1 x ?_
              rw [h2x]
              exact List.mem_append.mpr (Or.inl hx)
      exact main

/-!
## Conflict-map characterisation (infrastructure for C2 and C7)
-/

/-- Lookup with `[]` default. -/
def lookupD (l : List (String × List String)) (k : String) : List String :=
  (lookupA l k).getD []

/-- The mods providing file `f`, in mod order (what
`file_to_mods_map[f]` accumulates to). -/
def providersOf (mods : List (String × List String)) (f : String) :
    List String :=
  (mods.filter (fun p => p.2.contains f)).map Prod.fst

/-- Lookup inside a conflict map: `conflicts[m][f]`. -/
def lookupConf (c : List (String × List (String × List String)))
    (m f : String) : Option (List String) :=
  match lookupA c m with
  | none => none
  | some entry => lookupA entry f

theorem lookupA_some_mem {α : Type} (k : String) (v : α) :
    ∀ l : List (String × α), lookupA l k = some v → (k, v) ∈ l := by
  intro l
  induction l with
  | nil => intro h; exact absurd h (by simp [lookupA])
  | cons p t ih =>
      intro h
      rw [lookupA_cons] at h
      by_cases hp : p.1 = k
      · rw [if_pos hp] at h
        have hv : p.2 = v := Option.some.inj h
        have : p = (k, v) := by
          rcases p with ⟨a, b⟩
          simp at hp hv
          rw [hp, hv]
        rw [← this]
        exact List.mem_cons_self p t
      · rw [if_neg hp] at h
        exact List.mem_cons_of_mem p (ih h)

theorem lookupA_of_mem_nodup {α : Type} (k : String) (v : α) :
    ∀ l : List (String × α), (l.map Prod.fst).Nodup → (k, v) ∈ l →
      lookupA l k = some v := by
  intro l
  induction l with
  | nil => intro _ h; simp at h
  | cons p t ih =>
      intro hnd hm
      rw [List.map_cons, List.nodup_cons] at hnd
      rw [lookupA_cons]
      rcases List.mem_cons.mp hm with hm | hm
      · rw [← hm]
        simp
      · by_cases hp : p.1 = k
        · exfalso
          apply hnd.1
          rw [hp]
          exact List.mem_map.mpr ⟨(k, v), hm, rfl⟩
        · rw [if_neg hp]
          exact ih hnd.2 hm

theorem lookupD_addProvider (m : List (String × List String))
    (f' mn f : String) :
    lookupD (addProvider m f' mn) f =
      if f = f' then lookupD m f ++ [mn] else lookupD m f := by
  unfold addProvider
  rcases h : lookupA m f' with _ | l
  · by_cases hf : f = f'
    · rw [if_pos hf, hf]
      unfold lookupD
      rw [lookupA_append, h]
      simp [lookupA, h]
    · rw [if_neg hf]
      unfold lookupD
      rw [lookupA_append]
      rcases hx : lookupA m f with _ | v
      · show (lookupA [(f', [mn])] f).getD [] = ([] : List String)
        rw [lookupA_cons,
          if_neg (show ¬ (f', [mn]).1 = f from fun hh => hf hh.symm)]
        rfl
      · simp
  · by_cases hf : f = f'
    · rw [if_pos hf, hf]
      unfold lookupD
      rw [lookupA_updAssoc_self, h]
      rfl
    · rw [if_neg hf]
      unfold lookupD
      rw [lookupA_updAssoc_ne _ _ _ _ hf]

theorem addProvider_keys (m : List (String × List String)) (f' mn : String) :
    (addProvider m f' mn).map Prod.fst = m.map Prod.fst ∨
      (addProvider m f' mn).map Prod.fst = m.map Prod.fst ++ [f'] := by
  rcases h : lookupA m f' with _ | l
  · right
    simp [addProvider, h]
  · left
    have hx : addProvider m f' mn = updAssoc m f' (l ++ [mn]) := by
      simp [addProvider, h]
    rw [hx]
    unfold updAssoc
    have ha : m.any (fun p => p.1 = f') = true := by
      by_contra hc
      have hfalse : m.any (fun p => p.1 = f') = false := by
        cases hA : m.any (fun p => p.1 = f')
        · rfl
        · exact absurd hA hc
      have h0 := lookupA_any_false f' m hfalse
      rw [h] at h0
      exact Option.noConfusion h0
    rw [if_pos ha, List.map_map]
    apply List.map_congr_left
    intro p _
    by_cases hp : p.1 = f'
    · simp [hp]
    · simp [hp]

theorem addProvider_keys_nodup (m : List (String × List String))
    (f' mn : String) (h : (m.map Prod.fst).Nodup) :
    ((addProvider m f' mn).map Prod.fst).Nodup := by
  rcases hl : lookupA m f' with _ | l
  · have hx : addProvider m f' mn = m ++ [(f', [mn])] := by
      simp [addProvider, hl]
    rw [hx, List.map_append]
    refine List.Nodup.append h (List.nodup_singleton f') ?_
    intro a ha hb
    simp at hb
    rw [hb] at ha
    exact (lookupA_none_iff f' m).mp hl ha
  · have hx : addProvider m f' mn = updAssoc m f' (l ++ [mn]) := by
      simp [addProvider, hl]
    rw [hx]
    unfold updAssoc
    have ha : m.any (fun p => p.1 = f') = true := by
      by_contra hc
      have hfalse : m.any (fun p => p.1 = f') = false := by
        cases hA : m.any (fun p => p.1 = f')
        · rfl
        · exact absurd hA hc
      have h0 := lookupA_any_false f' m hfalse
      rw [hl] at h0
      exact Option.noConfusion h0
    rw [if_pos ha, List.map_map]
    have hmap : List.map (Prod.fst ∘ fun p =>
        if p.1 = f' then (f', l ++ [mn]) else p) m = List.map Prod.fst m := by
      apply List.map_congr_left
      intro p _
      by_cases hp : p.1 = f'
      · simp [hp]
      · simp [hp]
    rw [hmap]
    exact h

theorem innerFold_lookupD (mn : String) :
    ∀ (files : List String), files.Nodup →
      ∀ (acc : List (String × List String)) (f : String),
        lookupD (files.foldl (fun a f' => addProvider a f' mn) acc) f =
          lookupD acc f ++ (if files.contains f then [mn] else []) := by
  intro files
  induction files with
  | nil => intro _ acc f; simp
  | cons f0 fs ih =>
      intro hnd acc f
      rw [List.nodup_cons] at hnd
      rw [List.foldl_cons, ih hnd.2, lookupD_addProvider]
      by_cases hf : f = f0
      · rw [if_pos hf]
        have hcf : fs.contains f = false := by
          rw [hf]
          simpa using hnd.1
        rw [hcf]
        have hcf0 : (f0 :: fs).contains f = true := by
          rw [hf]
          simp
        rw [hcf0]
        simp
      · rw [if_neg hf]
        have hstep : (f0 :: fs).contains f = fs.contains f := by
          have hbe : (f == f0) = false := beq_eq_false_iff_ne.mpr hf
          rw [List.contains_cons, hbe]
          simp
        rw [hstep]

theorem innerFold_keys_nodup (mn : String) :
    ∀ (files : List String) (acc : List (String × List String)),
      ((acc.map Prod.fst).Nodup) →
      (((files.foldl (fun a f' => addProvider a f' mn) acc).map
        Prod.fst).Nodup) := by
  intro files
  induction files with
  | nil => intro acc h; exact h
  | cons f0 fs ih =>
      intro acc h
      rw [List.foldl_cons]
      exact ih _ (addProvider_keys_nodup acc f0 mn h)

theorem buildIndex_fold_lookupD :
    ∀ (mods : List (String × List String)),
      (∀ p ∈ mods, p.2.Nodup) →
      ∀ (acc : List (String × List String)) (f : String),
        lookupD (mods.foldl
          (fun acc' p => p.2.foldl (fun a f' => addProvider a f' p.1) acc')
          acc) f =
          lookupD acc f ++ providersOf mods f := by
  intro mods
  induction mods with
  | nil => intro _ acc f; simp [providersOf]
  | cons p rest ih =>
      intro hnd acc f
      rw [List.foldl_cons, ih (fun q hq => hnd q (List.mem_cons_of_mem p hq)),
        innerFold_lookupD p.1 p.2 (hnd p (List.mem_cons_self p rest))]
      unfold providersOf
      rw [List.filter_cons]
      by_cases hc : p.2.contains f
      · simp only [hc, if_true]
        simp
      · simp only [hc]
        simp

theorem buildIndex_lookupD (mods : List (String × List String))
    (hnd : ∀ p ∈ mods, p.2.Nodup) (f : String) :
    lookupD (buildIndex mods) f = providersOf mods f := by
  have := buildIndex_fold_lookupD mods hnd [] f
  unfold buildIndex
  rw [this]
  rfl

theorem buildIndex_keys_nodup (mods : List (String × List String)) :
    ((buildIndex mods).map Prod.fst).Nodup := by
  unfold buildIndex
  suffices h : ∀ (l : List (String × List String))
      (acc : List (String × List String)), ((acc.map Prod.fst).Nodup) →
      (((l.foldl
        (fun acc' p => p.2.foldl (fun a f' => addProvider a f' p.1) acc')
        acc).map Prod.fst).Nodup) by
    exact h mods [] (by simp)
  intro l
  induction l with
  | nil => intro acc h; exact h
  | cons p rest ih =>
      intro acc h
      rw [List.foldl_cons]
      exact ih _ (innerFold_keys_nodup p.1 p.2 acc h)

theorem buildIndex_mem (mods : List (String × List String))
    (hnd : ∀ p ∈ mods, p.2.Nodup) (f : String) (l : List String)
    (h : (f, l) ∈ buildIndex mods) : l = providersOf mods f := by
  have h1 := lookupA_of_mem_nodup f l (buildIndex mods)
    (buildIndex_keys_nodup mods) h
  have h2 := buildIndex_lookupD mods hnd f
  unfold lookupD at h2
  rw [h1] at h2
  exact h2

theorem lookupConf_addConflict
    (c : List (String × List (String × List String))) (mm f0 : String)
    (others : List String) (m f : String) :
    lookupConf (addConflict c mm f0 others) m f =
      if m = mm ∧ f = f0 then some others else lookupConf c m f := by
  unfold addConflict lookupConf
  by_cases hm : m = mm
  · rw [hm, lookupA_updAssoc_self]
    by_cases hf : f = f0
    · rw [if_pos ⟨rfl, hf⟩, hf]
      show lookupA (updAssoc ((lookupA c mm).getD []) f0 others) f0 =
        some others
      rw [lookupA_updAssoc_self]
    · rw [if_neg (fun hh => hf hh.2)]
      show lookupA (updAssoc ((lookupA c mm).getD []) f0 others) f =
        (match lookupA c mm with
         | none => none
         | some entry => lookupA entry f)
      rw [lookupA_updAssoc_ne _ _ _ _ hf]
      rcases he : lookupA c mm with _ | entry
      · rfl
      · rfl
  · rw [if_neg (fun hh => hm hh.1), lookupA_updAssoc_ne _ _ _ _ hm]

theorem lookupConf_provFold (cheats : List String) (f0 : String)
    (l0 : List String) :
    ∀ (rem : List String)
      (acc : List (String × List (String × List String))) (m f : String),
      lookupConf
        (rem.foldl
          (fun a mm =>
            if cheats.contains mm then a
            else addConflict a mm f0 (l0.filter (fun x => ¬ x = mm)))
          acc) m f =
        if m ∈ rem ∧ cheats.contains m = false ∧ f = f0 then
          some (l0.filter (fun x => ¬ x = m))
        else lookupConf acc m f := by
  intro rem
  induction rem with
  | nil =>
      intro acc m f
      rw [if_neg (fun hh => (List.not_mem_nil m) hh.1)]
      rfl
  | cons mm rem' ih =>
      intro acc m f
      rw [List.foldl_cons]
      by_cases hcm : cheats.contains mm
      · rw [if_pos hcm, ih]
        by_cases hmm : m = mm
        · have h1 : cheats.contains m = true := by rw [hmm]; exact hcm
          have hc1 : ¬ (m ∈ rem' ∧ cheats.contains m = false ∧ f = f0) := by
            intro hh
            rw [h1] at hh
            exact Bool.noConfusion hh.2.1
          have hc2 : ¬ (m ∈ mm :: rem' ∧ cheats.contains m = false ∧
              f = f0) := by
            intro hh
            rw [h1] at hh
            exact Bool.noConfusion hh.2.1
          rw [if_neg hc1, if_neg hc2]
        · by_cases hrest : m ∈ rem' ∧ cheats.contains m = false ∧ f = f0
          · rw [if_pos hrest, if_pos ⟨List.mem_cons_of_mem mm hrest.1,
              hrest.2⟩]
          · rw [if_neg hrest]
            rw [if_neg (fun hh => hrest ⟨(List.mem_cons.mp hh.1).resolve_left
              hmm, hh.2⟩)]
      · rw [if_neg hcm, ih]
        by_cases hrest : m ∈ rem' ∧ cheats.contains m = false ∧ f = f0
        · rw [if_pos hrest, if_pos ⟨List.mem_cons_of_mem mm hrest.1, hrest.2⟩]
        · rw [if_neg hrest, lookupConf_addConflict]
          by_cases hmf : m = mm ∧ f = f0
          · have hcmf : cheats.contains m = false := by
              rw [hmf.1]
              cases hA : cheats.contains mm
              · rfl
              · exact absurd hA hcm
            have hmem : m ∈ mm :: rem' := by
              rw [hmf.1]
              exact List.mem_cons_self mm rem'
            rw [if_pos hmf, if_pos ⟨hmem, hcmf, hmf.2⟩, hmf.1]
          · rw [if_neg hmf]
            rw [if_neg (fun hh => ?_)]
            rcases List.mem_cons.mp hh.1 with h1 | h1
            · exact hmf ⟨h1, hh.2.2⟩
            · exact hrest ⟨h1, hh.2⟩

theorem lookupConf_buildConflicts_fold (cheats : List String) :
    ∀ (idx : List (String × List String)),
      ((idx.map Prod.fst).Nodup) →
      ∀ (acc : List (String × List (String × List String))) (m f : String),
        lookupConf
          (idx.foldl
            (fun acc' p =>
              if 1 < p.2.length then
                p.2.foldl
                  (fun a mm =>
                    if cheats.contains mm then a
                    else addConflict a mm p.1
                      (p.2.filter (fun x => ¬ x = mm)))
                  acc'
              else acc')
            acc) m f =
          (match lookupA idx f with
           | some l =>
              if 1 < l.length ∧ m ∈ l ∧ cheats.contains m = false then
                some (l.filter (fun x => ¬ x = m))
              else lookupConf acc m f
           | none => lookupConf acc m f) := by
  intro idx
  induction idx with
  | nil =>
      intro _ acc m f
      rfl
  | cons p rest ih =>
      rcases p with ⟨f0, l0⟩
      intro hnd acc m f
      rw [List.map_cons, List.nodup_cons] at hnd
      rw [List.foldl_cons, ih hnd.2, lookupA_cons]
      by_cases hf : f0 = f
      · rw [if_pos hf]
        have hrest : lookupA rest f = none := by
          rw [lookupA_none_iff]
          rw [← hf]
          exact hnd.1
        rw [hrest]
        simp only []
        by_cases hlen : 1 < l0.length
        · rw [if_pos hlen, lookupConf_provFold]
          by_cases hc : m ∈ l0 ∧ cheats.contains m = false ∧ f = f0
          · rw [if_pos hc, if_pos ⟨hlen, hc.1, hc.2.1⟩]
          · rw [if_neg hc, if_neg (fun hh => hc ⟨hh.2.1, hh.2.2, hf.symm⟩)]
        · rw [if_neg hlen, if_neg (fun hh => hlen hh.1)]
      · rw [if_neg hf]
        rcases hr : lookupA rest f with _ | l
        · simp only []
          by_cases hlen : 1 < l0.length
          · rw [if_pos hlen, lookupConf_provFold,
              if_neg (fun hh => hf hh.2.2.symm)]
          · rw [if_neg hlen]
        · simp only []
          by_cases hcond : 1 < l.length ∧ m ∈ l ∧ cheats.contains m = false
          · rw [if_pos hcond]
            rw [if_pos hcond]
          · rw [if_neg hcond]
            by_cases hlen : 1 < l0.length
            · rw [if_pos hlen, lookupConf_provFold,
                if_neg (fun hh => hf hh.2.2.symm)]
              rw [if_neg hcond]
            · rw [if_neg hlen]
              rw [if_neg hcond]

/-- The conflict map, characterised by lookups: `conflicts[m][f]` exists
iff `f` has more than one provider, `m` is one of them and `m` is not
cheat-only; its value is the provider list without `m`. -/
theorem lookupConf_buildConflicts (idx : List (String × List String))
    (hnd : (idx.map Prod.fst).Nodup) (cheats : List String) (m f : String) :
    lookupConf (buildConflicts idx cheats) m f =
      (match lookupA idx f with
       | some l =>
          if 1 < l.length ∧ m ∈ l ∧ cheats.contains m = false then
            some (l.filter (fun x => ¬ x = m))
          else none
       | none => none) := by
  have := lookupConf_buildConflicts_fold cheats idx hnd [] m f
  unfold buildConflicts
  rw [this]
  rcases lookupA idx f with _ | l
  · rfl
  · rfl

/-!
## Scan-level lemmas
-/

/-- A well-formed mod root: directory names are unique (a filesystem
constraint) and so are the enumerated file paths of each mod directory. -/
def WFRoot (root : List ModDir) : Prop :=
  (root.map ModDir.name).Nodup ∧ ∀ d ∈ root, (walkL "" d.children).Nodup

instance (root : List ModDir) : Decidable (WFRoot root) := by
  unfold WFRoot
  infer_instance

theorem insertLt_perm {α : Type} (lt : α → α → Bool) (x : α) :
    ∀ l : List α, (insertLt lt x l).Perm (x :: l) := by
  intro l
  induction l with
  | nil => exact List.Perm.refl [x]
  | cons y ys ih =>
      unfold insertLt
      by_cases h : lt x y
      · rw [if_pos h]
      · rw [if_neg h]
        exact (ih.cons y).trans (List.Perm.swap x y ys)

theorem sortLt_perm {α : Type} (lt : α → α → Bool) (l : List α) :
    (sortLt lt l).Perm l := by
  suffices h : ∀ (l' acc : List α),
      (l'.foldl (fun a x => insertLt lt x a) acc).Perm (acc ++ l') by
    have := h l []
    unfold sortLt
    simpa using this
  intro l'
  induction l' with
  | nil => intro acc; simp
  | cons x xs ih =>
      intro acc
      rw [List.foldl_cons]
      refine (ih (insertLt lt x acc)).trans ?_
      refine (List.Perm.append_right xs (insertLt_perm lt x acc)).trans ?_
      exact List.perm_middle.symm

theorem load_order_nodup (dirs : List String) (h : dirs.Nodup) :
    (get_current_load_order dirs).Nodup :=
  ((sortLt_perm dirLt dirs).nodup_iff).mpr h

theorem scannedMods_fst_sublist (root : List ModDir)
    (special : Option String) :
    ∀ order : List String,
      ((scannedMods root order special).map Prod.fst).Sublist order := by
  intro order
  induction order with
  | nil => simp [scannedMods]
  | cons n t ih =>
      unfold scannedMods at ih ⊢
      rw [List.filterMap_cons]
      by_cases hs : some n = special
      · rw [if_pos hs]
        exact List.Sublist.cons n ih
      · rw [if_neg hs]
        rcases hc : childrenOf root n with _ | cs
        · exact List.Sublist.cons n ih
        · exact List.Sublist.cons₂ n ih

theorem scannedMods_mem (root : List ModDir) (special : Option String)
    (order : List String) (q : String × List FsEntry)
    (hq : q ∈ scannedMods root order special) :
    ¬ some q.1 = special ∧ childrenOf root q.1 = some q.2 := by
  unfold scannedMods at hq
  obtain ⟨n, _, heq⟩ := List.mem_filterMap.mp hq
  by_cases hs : some n = special
  · rw [if_pos hs] at heq
    exact absurd heq (by simp)
  · rw [if_neg hs] at heq
    rcases hc : childrenOf root n with _ | cs
    · rw [hc] at heq
      exact absurd heq (by simp)
    · rw [hc] at heq
      have hq2 : (n, cs) = q := by
        have : some (n, cs) = some q := heq
        exact Option.some.inj this
      rw [← hq2]
      exact ⟨hs, hc⟩

theorem childrenOf_mem (root : List ModDir) (n : String)
    (cs : List FsEntry) :
    childrenOf root n = some cs → ∃ d ∈ root, d.children = cs := by
  induction root with
  | nil => intro h; exact absurd h (by simp [childrenOf])
  | cons d t ih =>
      intro h
      unfold childrenOf at h
      by_cases hd : d.name = n
      · rw [if_pos hd] at h
        exact ⟨d, List.mem_cons_self d t, Option.some.inj h⟩
      · rw [if_neg hd] at h
        obtain ⟨d', hd', hce⟩ := ih h
        exact ⟨d', List.mem_cons_of_mem d hd', hce⟩

theorem map_fst_pairs (scanned : List (String × List FsEntry)) :
    (scanned.map (fun p => (p.1, walkL "" p.2))).map Prod.fst =
      scanned.map Prod.fst := by
  rw [List.map_map]
  apply List.map_congr_left
  intro p _
  rfl

theorem providesB_iff (s : ScanResult) (m f : String) :
    providesB s m f = true ↔
      ∃ fs, lookupA s.mod_files m = some fs ∧ fs.contains f = true := by
  unfold providesB
  rcases h : lookupA s.mod_files m with _ | fs
  · constructor
    · intro hh; exact Bool.noConfusion hh
    · rintro ⟨fs, he, _⟩
      exact Option.noConfusion he
  · constructor
    · intro hh
      exact ⟨fs, rfl, hh⟩
    · rintro ⟨fs', he, hc⟩
      rw [Option.some.inj he]
      exact hc

theorem mem_providersOf (mods : List (String × List String))
    (hnd : (mods.map Prod.fst).Nodup) (m f : String) :
    m ∈ providersOf mods f ↔
      ∃ fs, lookupA mods m = some fs ∧ fs.contains f = true := by
  unfold providersOf
  constructor
  · intro hm
    obtain ⟨p, hp, hpe⟩ := List.mem_map.mp hm
    have hpf := List.mem_filter.mp hp
    refine ⟨p.2, ?_, hpf.2⟩
    rw [← hpe]
    exact lookupA_of_mem_nodup p.1 p.2 mods hnd hpf.1
  · rintro ⟨fs, hl, hc⟩
    have hm := lookupA_some_mem m fs mods hl
    exact List.mem_map.mpr ⟨(m, fs), List.mem_filter.mpr ⟨hm, hc⟩, rfl⟩

theorem providersOf_nodup (mods : List (String × List String))
    (hnd : (mods.map Prod.fst).Nodup) (f : String) :
    (providersOf mods f).Nodup :=
  List.Nodup.sublist
    (List.Sublist.map Prod.fst (List.filter_sublist mods)) hnd

theorem one_lt_length_iff_exists (l : List String) (hnd : l.Nodup)
    (m : String) (hm : m ∈ l) :
    1 < l.length ↔ ∃ m', ¬ m' = m ∧ m' ∈ l := by
  constructor
  · intro hlen
    rcases l with _ | ⟨a, t⟩
    · simp at hm
    · rcases t with _ | ⟨b, t2⟩
      · simp at hlen
      · by_cases hab : a = m
        · refine ⟨b, ?_, by simp⟩
          rw [List.nodup_cons] at hnd
          intro hbm
          apply hnd.1
          rw [hab, ← hbm]
          simp
        · exact ⟨a, hab, by simp⟩
  · rintro ⟨m', hne, hm'⟩
    by_contra hc
    push_neg at hc
    rcases l with _ | ⟨a, t⟩
    · simp at hm
    · have ht : t = [] := by
        rw [List.length_cons] at hc
        exact List.length_eq_zero.mp (by omega)
      rw [ht] at hm hm'
      simp at hm hm'
      exact hne (hm'.trans hm.symm)

theorem inConflictB_eq (s : ScanResult) (m f : String) :
    inConflictB s m f = (lookupConf s.conflicts m f).isSome := by
  unfold inConflictB lookupConf
  rcases lookupA s.conflicts m with _ | entry
  · rfl
  · rfl

theorem contributorB_eq (s : ScanResult) (m f other : String) :
    contributorB s m f other =
      (match lookupConf s.conflicts m f with
       | some l => l.contains other
       | none => false) := by
  unfold contributorB lookupConf
  rcases lookupA s.conflicts m with _ | entry
  · rfl
  · show (match lookupA entry f with
        | none => false
        | some l => l.contains other) =
      (match lookupA entry f with
        | some l => l.contains other
        | none => false)
    rcases lookupA entry f with _ | l
    · rfl
    · rfl

/-- The load order computed inside `scan_and_analyze`. -/
def scanOrder (root : List ModDir) : List String :=
  get_current_load_order (root.map ModDir.name)

/-- The special cheats folder detected inside `scan_and_analyze`. -/
def scanSpecial (root : List ModDir) : Option String :=
  findSpecial (scanOrder root)

/-- The (name, children) pairs scanned by `scan_and_analyze`. -/
def scanScanned (root : List ModDir) : List (String × List FsEntry) :=
  scannedMods root (scanOrder root) (scanSpecial root)

/-- The `mod_files` map computed by `scan_and_analyze`. -/
def scanModFiles (root : List ModDir) : List (String × List String) :=
  (scanScanned root).map (fun p => (p.1, walkL "" p.2))

/-- The `cheat_only_mods` list computed by `scan_and_analyze`. -/
def scanCheatOnly (root : List ModDir) : List String :=
  ((scanScanned root).filter (fun p => cheatOnlyB p.2)).map Prod.fst

theorem scan_conflicts_eq (root : List ModDir) :
    (scan_and_analyze root).conflicts =
      buildConflicts (buildIndex (scanModFiles root)) (scanCheatOnly root) :=
  rfl

theorem scan_mod_files_eq (root : List ModDir) :
    (scan_and_analyze root).mod_files = scanModFiles root := rfl

theorem scan_cheat_only_eq (root : List ModDir) :
    (scan_and_analyze root).cheat_only_mods = scanCheatOnly root := rfl

theorem scan_special_eq (root : List ModDir) :
    (scan_and_analyze root).special_cheats_folder_name = scanSpecial root :=
  rfl

theorem scanScanned_keys_nodup (root : List ModDir) (hwf : WFRoot root) :
    ((scanScanned root).map Prod.fst).Nodup :=
  List.Nodup.sublist
    (scannedMods_fst_sublist root (scanSpecial root) (scanOrder root))
    (load_order_nodup _ hwf.1)

theorem scanModFiles_keys_nodup (root : List ModDir) (hwf : WFRoot root) :
    ((scanModFiles root).map Prod.fst).Nodup := by
  unfold scanModFiles
  rw [map_fst_pairs]
  exact scanScanned_keys_nodup root hwf

theorem scanModFiles_vals_nodup (root : List ModDir) (hwf : WFRoot root) :
    ∀ p ∈ scanModFiles root, p.2.Nodup := by
  intro p hp
  obtain ⟨q, hq, hqe⟩ := List.mem_map.mp hp
  obtain ⟨_, hch⟩ :=
    scannedMods_mem root (scanSpecial root) (scanOrder root) q hq
  obtain ⟨d, hd, hdc⟩ := childrenOf_mem root q.1 q.2 hch
  rw [← hqe]
  show (walkL "" q.2).Nodup
  rw [← hdc]
  exact hwf.2 d hd

theorem scan_lookupConf (root : List ModDir) (hwf : WFRoot root)
    (m f : String) :
    lookupConf (buildConflicts (buildIndex (scanModFiles root))
        (scanCheatOnly root)) m f =
      (if 1 < (providersOf (scanModFiles root) f).length ∧
          m ∈ providersOf (scanModFiles root) f ∧
          (scanCheatOnly root).contains m = false then
        some ((providersOf (scanModFiles root) f).filter (fun x => ¬ x = m))
      else none) := by
  rw [lookupConf_buildConflicts _ (buildIndex_keys_nodup _) _ m f]
  have hd := buildIndex_lookupD (scanModFiles root)
    (scanModFiles_vals_nodup root hwf) f
  unfold lookupD at hd
  rcases hA : lookupA (buildIndex (scanModFiles root)) f with _ | l
  · have hp : providersOf (scanModFiles root) f = [] := by
      rw [← hd, hA]
      rfl
    rw [hp]
    simp
  · have hl : l = providersOf (scanModFiles root) f := by
      rw [← hd, hA]
      rfl
    rw [← hl]

theorem scan_inConflict_iff (root : List ModDir) (hwf : WFRoot root)
    (m f : String) :
    inConflictB (scan_and_analyze root) m f = true ↔
      ((scan_and_analyze root).cheat_only_mods.contains m = false ∧
       providesB (scan_and_analyze root) m f = true ∧
       ∃ m', ¬ m' = m ∧ providesB (scan_and_analyze root) m' f = true) := by
  rw [inConflictB_eq, scan_conflicts_eq, scan_lookupConf root hwf m f,
      scan_cheat_only_eq]
  have hkn := scanModFiles_keys_nodup root hwf
  by_cases hcond : 1 < (providersOf (scanModFiles root) f).length ∧
      m ∈ providersOf (scanModFiles root) f ∧
      (scanCheatOnly root).contains m = false
  · rw [if_pos hcond]
    simp only [Option.isSome_some]
    constructor
    · intro _
      obtain ⟨hlen, hmem, hco⟩ := hcond
      refine ⟨hco, ?_, ?_⟩
      · rw [providesB_iff, scan_mod_files_eq]
        exact (mem_providersOf _ hkn m f).mp hmem
      · obtain ⟨m', hne, hm'⟩ := (one_lt_length_iff_exists _
          (providersOf_nodup _ hkn f) m hmem).mp hlen
        refine ⟨m', hne, ?_⟩
        rw [providesB_iff, scan_mod_files_eq]
        exact (mem_providersOf _ hkn m' f).mp hm'
    · intro _
      trivial
  · rw [if_neg hcond]
    simp only [Option.isSome_none]
    constructor
    · intro hfalse
      exact absurd hfalse (by simp)
    · rintro ⟨hco, hpm, m', hne, hpm'⟩
      exfalso
      apply hcond
      have hmem : m ∈ providersOf (scanModFiles root) f := by
        rw [providesB_iff, scan_mod_files_eq] at hpm
        exact (mem_providersOf _ hkn m f).mpr hpm
      have hmem' : m' ∈ providersOf (scanModFiles root) f := by
        rw [providesB_iff, scan_mod_files_eq] at hpm'
        exact (mem_providersOf _ hkn m' f).mpr hpm'
      refine ⟨?_, hmem, hco⟩
      exact (one_lt_length_iff_exists _ (providersOf_nodup _ hkn f) m
        hmem).mpr ⟨m', hne, hmem'⟩

theorem scan_self_contributor (root : List ModDir) (hwf : WFRoot root)
    (m f : String) : contributorB (scan_and_analyze root) m f m = false := by
  rw [contributorB_eq, scan_conflicts_eq, scan_lookupConf root hwf m f]
  by_cases hcond : 1 < (providersOf (scanModFiles root) f).length ∧
      m ∈ providersOf (scanModFiles root) f ∧
      (scanCheatOnly root).contains m = false
  · rw [if_pos hcond]
    show ((providersOf (scanModFiles root) f).filter
      (fun x => ¬ x = m)).contains m = false
    cases hc : ((providersOf (scanModFiles root) f).filter
        (fun x => ¬ x = m)).contains m
    · rfl
    · exfalso
      have hm : m ∈ (providersOf (scanModFiles root) f).filter
          (fun x => ¬ x = m) := by
        simpa using hc
      have := (List.mem_filter.mp hm).2
      simp at this
  · rw [if_neg hcond]

theorem scan_contributor (root : List ModDir) (hwf : WFRoot root)
    (a b f : String) (hne : ¬ a = b)
    (hpa : providesB (scan_and_analyze root) a f = true)
    (hpb : providesB (scan_and_analyze root) b f = true)
    (hco : (scan_and_analyze root).cheat_only_mods.contains a = false) :
    contributorB (scan_and_analyze root) a f b = true := by
  rw [contributorB_eq, scan_conflicts_eq, scan_lookupConf root hwf a f]
  have hkn := scanModFiles_keys_nodup root hwf
  have hma : a ∈ providersOf (scanModFiles root) f := by
    rw [providesB_iff, scan_mod_files_eq] at hpa
    exact (mem_providersOf _ hkn a f).mpr hpa
  have hmb : b ∈ providersOf (scanModFiles root) f := by
    rw [providesB_iff, scan_mod_files_eq] at hpb
    exact (mem_providersOf _ hkn b f).mpr hpb
  have hlen : 1 < (providersOf (scanModFiles root) f).length :=
    (one_lt_length_iff_exists _ (providersOf_nodup _ hkn f) a hma).mpr
      ⟨b, fun h => hne h.symm, hmb⟩
  have hcond : 1 < (providersOf (scanModFiles root) f).length ∧
      a ∈ providersOf (scanModFiles root) f ∧
      (scanCheatOnly root).contains a = false := by
    refine ⟨hlen, hma, ?_⟩
    rw [← scan_cheat_only_eq]
    exact hco
  rw [if_pos hcond]
  show ((providersOf (scanModFiles root) f).filter
    (fun x => ¬ x = a)).contains b = true
  have hmem : b ∈ (providersOf (scanModFiles root) f).filter
      (fun x => ¬ x = a) := by
    refine List.mem_filter.mpr ⟨hmb, ?_⟩
    simp
    exact fun h => hne h.symm
  simpa using hmem

/-- A root where mod `A` is cheat-only (has a `cheats` dir and no
`romfs`) but still provides a top-level file that `B` also provides. -/
def c2root : List ModDir :=
  [⟨"A", [FsEntry.dir "cheats" [], FsEntry.file "f.bin"]⟩,
   ⟨"B", [FsEntry.file "f.bin"]⟩]

/-- C2, counterexample to the original claim: in `c2root` the mods `A`
and `B` both provide `f.bin` — at least two providers, the subject `A`
plus one other — yet `f.bin` does not appear in `A`'s conflict entry,
because the conflict loop skips cheat-only mods as subjects (source line
195). The claimed iff is missing the condition that the subject mod is
not cheat-only. -/
theorem C2_cheat_only_subject_counterexample :
    WFRoot c2root ∧
    providesB (scan_and_analyze c2root) "A" "f.bin" = true ∧
    providesB (scan_and_analyze c2root) "B" "f.bin" = true ∧
    (scan_and_analyze c2root).cheat_only_mods.contains "A" = true ∧
    inConflictB (scan_and_analyze c2root) "A" "f.bin" = false ∧
    inConflictB (scan_and_analyze c2root) "B" "f.bin" = true := by
  decide

/-- C2 (amended). For every well-formed root (distinct directory names,
duplicate-free per-mod file enumerations): (a) no mod is listed as a
contributor in its own conflict entry; (b) a file appears in a mod's
conflict entry iff the mod is not cheat-only, it provides the file, and
at least one other mod also provides it — the original claim's
"at least two providers (the subject plus one other)" is not sufficient
for a cheat-only subject; (c) for any file provided by two distinct
mods, any of the two that is not cheat-only lists the other as a
contributor for that file. -/
theorem C2_conflict_map_invariants (root : List ModDir)
    (hwf : WFRoot root) :
    (∀ m f, contributorB (scan_and_analyze root) m f m = false) ∧
    (∀ m f, inConflictB (scan_and_analyze root) m f = true ↔
      ((scan_and_analyze root).cheat_only_mods.contains m = false ∧
       providesB (scan_and_analyze root) m f = true ∧
       ∃ m', ¬ m' = m ∧ providesB (scan_and_analyze root) m' f = true)) ∧
    (∀ a b f, ¬ a = b →
      providesB (scan_and_analyze root) a f = true →
      providesB (scan_and_analyze root) b f = true →
      (scan_and_analyze root).cheat_only_mods.contains a = false →
      contributorB (scan_and_analyze root) a f b = true) :=
  ⟨fun m f => scan_self_contributor root hwf m f,
   fun m f => scan_inConflict_iff root hwf m f,
   fun a b f hne hpa hpb hco =>
     scan_contributor root hwf a b f hne hpa hpb hco⟩

/-- Witness for `C2_conflict_map_invariants` at the concrete root
`c2root`. -/
theorem C2_conflict_map_invariants_witness :
    WFRoot c2root ∧
    contributorB (scan_and_analyze c2root) "B" "f.bin" "B" = false ∧
    contributorB (scan_and_analyze c2root) "B" "f.bin" "A" = true :=
  ⟨by decide,
   (C2_conflict_map_invariants c2root (by decide)).1 "B" "f.bin",
   (C2_conflict_map_invariants c2root (by decide)).2.2 "B" "A" "f.bin"
     (by decide) (by decide) (by decide) (by decide)⟩

/-!
## Cheat-parsing lemmas (C8)
-/

theorem mem_updAssoc {α : Type} (l : List (String × α)) (k : String)
    (v : α) (q : String × α) (hq : q ∈ updAssoc l k v) :
    q ∈ l ∨ q = (k, v) := by
  unfold updAssoc at hq
  by_cases h : l.any (fun p => p.1 = k)
  · rw [if_pos h] at hq
    obtain ⟨p, hp, hpe⟩ := List.mem_map.mp hq
    by_cases hpk : p.1 = k
    · rw [if_pos hpk] at hpe
      exact Or.inr hpe.symm
    · rw [if_neg hpk] at hpe
      exact Or.inl (hpe ▸ hp)
  · rw [if_neg h] at hq
    rcases List.mem_append.mp hq with h1 | h2
    · exact Or.inl h1
    · simp at h2
      exact Or.inr h2

theorem updAssoc_keys_nodup {α : Type} (l : List (String × α)) (k : String)
    (v : α) (h : (l.map Prod.fst).Nodup) :
    ((updAssoc l k v).map Prod.fst).Nodup := by
  unfold updAssoc
  by_cases ha : l.any (fun p => p.1 = k)
  · rw [if_pos ha]
    have heq : (l.map (fun p => if p.1 = k then (k, v) else p)).map Prod.fst
        = l.map Prod.fst := by
      rw [List.map_map]
      apply List.map_congr_left
      intro p _
      by_cases hpk : p.1 = k
      · simp [hpk]
      · simp [hpk]
    rw [heq]
    exact h
  · rw [if_neg ha]
    rw [List.map_append]
    refine List.Nodup.append h (by simp) ?_
    intro a ha1 ha2
    simp at ha2
    subst ha2
    have hnone : lookupA l a = none :=
      lookupA_any_false a l (Bool.eq_false_iff.mpr ha)
    exact absurd ha1 ((lookupA_none_iff a l).mp hnone)

theorem cheatFold_mem (es : List String) :
    ∀ (bs : List (List Char × List Char)) (acc : List (String × Bool))
      (q : String × Bool),
      q ∈ bs.foldl
        (fun a p =>
          let name := innerName p.1
          if name ≠ "" ∧ pyStrip p.2 ≠ [] then
            updAssoc a name (es.contains name)
          else a) acc →
      q ∈ acc ∨
        (¬ q.1 = "" ∧ q.2 = es.contains q.1 ∧
         ∃ p ∈ bs, innerName p.1 = q.1 ∧ ¬ pyStrip p.2 = []) := by
  intro bs
  induction bs with
  | nil => intro acc q hq; exact Or.inl hq
  | cons b t ih =>
      intro acc q hq
      rw [List.foldl_cons] at hq
      rcases ih _ q hq with h1 | h2
      · by_cases hb : innerName b.1 ≠ "" ∧ pyStrip b.2 ≠ []
        · rw [if_pos hb] at h1
          rcases mem_updAssoc _ _ _ q h1 with h3 | h4
          · exact Or.inl h3
          · subst h4
            exact Or.inr ⟨hb.1, rfl, b, List.mem_cons_self b t, rfl, hb.2⟩
        · rw [if_neg hb] at h1
          exact Or.inl h1
      · obtain ⟨hne, hflag, p, hp, hn, hbd⟩ := h2
        exact Or.inr ⟨hne, hflag, p, List.mem_cons_of_mem b hp, hn, hbd⟩

theorem cheatStep_mem (es : List String) (content : String)
    (acc : List (String × Bool)) (q : String × Bool)
    (hq : q ∈ cheatStep es acc content) :
    q ∈ acc ∨
      (¬ q.1 = "" ∧ q.2 = es.contains q.1 ∧
       ∃ p ∈ findBlocks content.data,
         innerName p.1 = q.1 ∧ ¬ pyStrip p.2 = []) := by
  unfold cheatStep at hq
  exact cheatFold_mem es (findBlocks content.data) acc q hq

theorem parseCheats_mem (es : List String) (contents : List String) :
    ∀ q ∈ parseCheats es contents,
      ¬ q.1 = "" ∧ q.2 = es.contains q.1 ∧
      ∃ content ∈ contents, ∃ p ∈ findBlocks content.data,
        innerName p.1 = q.1 ∧ ¬ pyStrip p.2 = [] := by
  suffices h : ∀ (cs : List String) (acc : List (String × Bool))
      (q : String × Bool), q ∈ cs.foldl (cheatStep es) acc →
      q ∈ acc ∨
        (¬ q.1 = "" ∧ q.2 = es.contains q.1 ∧
         ∃ content ∈ cs, ∃ p ∈ findBlocks content.data,
           innerName p.1 = q.1 ∧ ¬ pyStrip p.2 = []) by
    intro q hq
    rcases h contents [] q hq with h1 | h2
    · simp at h1
    · exact h2
  intro cs
  induction cs with
  | nil => intro acc q hq; exact Or.inl hq
  | cons c t ih =>
      intro acc q hq
      rw [List.foldl_cons] at hq
      rcases ih _ q hq with h1 | h2
      · rcases cheatStep_mem es c acc q h1 with h3 | h4
        · exact Or.inl h3
        · obtain ⟨hne, hflag, p, hp, hn, hbd⟩ := h4
          exact Or.inr ⟨hne, hflag, c, List.mem_cons_self c t, p, hp, hn,
            hbd⟩
      · obtain ⟨hne, hflag, content, hc, rest⟩ := h2
        exact Or.inr ⟨hne, hflag, content, List.mem_cons_of_mem c hc, rest⟩

theorem cheatStep_keys_nodup (es : List String) (content : String)
    (acc : List (String × Bool)) (h : (acc.map Prod.fst).Nodup) :
    ((cheatStep es acc content).map Prod.fst).Nodup := by
  unfold cheatStep
  suffices hs : ∀ (bs : List (List Char × List Char))
      (a0 : List (String × Bool)), (a0.map Prod.fst).Nodup →
      ((bs.foldl
        (fun a p =>
          let name := innerName p.1
          if name ≠ "" ∧ pyStrip p.2 ≠ [] then
            updAssoc a name (es.contains name)
          else a) a0).map Prod.fst).Nodup by
    exact hs (findBlocks content.data) acc h
  intro bs
  induction bs with
  | nil => intro a0 h0; exact h0
  | cons b t ih =>
      intro a0 h0
      rw [List.foldl_cons]
      apply ih
      by_cases hb : innerName b.1 ≠ "" ∧ pyStrip b.2 ≠ []
      · rw [if_pos hb]
        exact updAssoc_keys_nodup _ _ _ h0
      · rw [if_neg hb]
        exact h0

theorem parseCheats_keys_nodup (es : List String) (contents : List String) :
    ((parseCheats es contents).map Prod.fst).Nodup := by
  unfold parseCheats
  suffices h : ∀ (cs : List String) (acc : List (String × Bool)),
      (acc.map Prod.fst).Nodup →
      ((cs.foldl (cheatStep es) acc).map Prod.fst).Nodup by
    exact h contents [] (by simp)
  intro cs
  induction cs with
  | nil => intro acc h0; exact h0
  | cons c t ih =>
      intro acc h0
      rw [List.foldl_cons]
      exact ih _ (cheatStep_keys_nodup es c acc h0)

/-- C8, counterexample to the original claim: the block with header
`[ ]` has inner header text `' '`, which is empty after trimming
whitespace, yet the block is retained (under the untrimmed name `' '`),
because the code tests the truthiness of the untrimmed slice
`name_with_brackets.strip()[1:-1]` and never trims it (source lines
1087-1091). -/
theorem C8_header_trim_counterexample :
    parseCheats [] ["[ ]\ncode"] = [(" ", false)] ∧
    pyStrip " ".data = [] := by
  refine ⟨by decide, by decide⟩

/-- C8 (amended). Over any enabled set and corpus: (1) every entry of the
parsed mapping has a non-empty *untrimmed* name — the header text is not
trimmed before the emptiness test, so a whitespace-only inner header is
retained — its flag equals membership of the name in the enabled set,
and it comes from a block with that inner name and a body that is
non-empty after trimming; (2) the mapping holds one entry per name, so a
later same-named retained block cannot add a second entry; (3) files are
folded left-to-right, later files processed on top of the mapping of the
earlier ones; (4) the per-block store is a dict assignment: looking the
name up afterwards returns the newly stored flag (last-wins). -/
theorem C8_cheat_block_retention (es : List String)
    (contents : List String) :
    (∀ q ∈ parseCheats es contents,
      ¬ q.1 = "" ∧ q.2 = es.contains q.1 ∧
      ∃ content ∈ contents, ∃ p ∈ findBlocks content.data,
        innerName p.1 = q.1 ∧ ¬ pyStrip p.2 = []) ∧
    ((parseCheats es contents).map Prod.fst).Nodup ∧
    (∀ l2 : List String, parseCheats es (contents ++ l2) =
      l2.foldl (cheatStep es) (parseCheats es contents)) ∧
    (∀ (mapping : List (String × Bool)) (name : String) (flag : Bool),
      lookupA (updAssoc mapping name flag) name = some flag) :=
  ⟨parseCheats_mem es contents,
   parseCheats_keys_nodup es contents,
   fun l2 => by unfold parseCheats; rw [List.foldl_append],
   fun mapping name flag => lookupA_updAssoc_self mapping name flag⟩

/-!
## Special cheats folder (C7)
-/

theorem scan_special_not_provider (root : List ModDir) (s : String)
    (hs : scanSpecial root = some s) :
    lookupA (scanModFiles root) s = none := by
  rw [lookupA_none_iff]
  intro hmem
  unfold scanModFiles at hmem
  rw [map_fst_pairs] at hmem
  obtain ⟨q, hq, hqe⟩ := List.mem_map.mp hmem
  have hns :=
    (scannedMods_mem root (scanSpecial root) (scanOrder root) q hq).1
  rw [hs] at hns
  exact hns (by rw [hqe])

theorem scan_special_no_conflict (root : List ModDir) (hwf : WFRoot root)
    (s : String) (hs : scanSpecial root = some s) (f : String) :
    inConflictB (scan_and_analyze root) s f = false := by
  rw [inConflictB_eq, scan_conflicts_eq, scan_lookupConf root hwf s f]
  have hnc : ¬ (1 < (providersOf (scanModFiles root) f).length ∧
      s ∈ providersOf (scanModFiles root) f ∧
      (scanCheatOnly root).contains s = false) := by
    rintro ⟨_, hmem, _⟩
    obtain ⟨fs, hfs, _⟩ :=
      (mem_providersOf _ (scanModFiles_keys_nodup root hwf) s f).mp hmem
    rw [scan_special_not_provider root s hs] at hfs
    exact Option.noConfusion hfs
  rw [if_neg hnc]
  rfl

theorem scan_special_no_contributor (root : List ModDir)
    (hwf : WFRoot root) (s : String) (hs : scanSpecial root = some s)
    (m f : String) : contributorB (scan_and_analyze root) m f s = false := by
  rw [contributorB_eq, scan_conflicts_eq, scan_lookupConf root hwf m f]
  by_cases hcond : 1 < (providersOf (scanModFiles root) f).length ∧
      m ∈ providersOf (scanModFiles root) f ∧
      (scanCheatOnly root).contains m = false
  · rw [if_pos hcond]
    show ((providersOf (scanModFiles root) f).filter
      (fun x => ¬ x = m)).contains s = false
    cases hc : ((providersOf (scanModFiles root) f).filter
        (fun x => ¬ x = m)).contains s
    · rfl
    · exfalso
      have hmem : s ∈ (providersOf (scanModFiles root) f).filter
          (fun x => ¬ x = m) := by
        simpa using hc
      have hmem' := (List.mem_filter.mp hmem).1
      obtain ⟨fs, hfs, _⟩ :=
        (mem_providersOf _ (scanModFiles_keys_nodup root hwf) s f).mp hmem'
      rw [scan_special_not_provider root s hs] at hfs
      exact Option.noConfusion hfs
  · rw [if_neg hcond]

theorem phase2Loop_skip_special (env : Env) (special : Option String)
    (cheatOnly : List String) (tm : List (String × String)) (total : Nat) :
    ∀ (config : List (String × Bool)) (idx ops : Nat) (msgs : List Msg)
      (effs : List Eff) (recs : List (String × Bool)),
      phase2Loop env special cheatOnly tm total config idx ops msgs effs
        recs =
      phase2Loop env special cheatOnly tm total
        (config.filter (fun p => ¬ some p.1 = special)) idx ops msgs effs
        recs := by
  intro config
  induction config with
  | nil => intro idx ops msgs effs recs; rfl
  | cons pe rest ih =>
      rcases pe with ⟨m, en⟩
      intro idx ops msgs effs recs
      rw [List.filter_cons]
      by_cases hsp : some m = special
      · rw [if_neg (by simp [hsp])]
        rw [phase2Loop, if_pos hsp]
        exact ih idx ops msgs effs recs
      · rw [if_pos (by simp [hsp])]
        rw [phase2Loop, if_neg hsp]
        conv_rhs => rw [phase2Loop, if_neg hsp]
        simp only []
        rcases hl : lookupA tm ( strip_prefix m) with _ | temp
        · exact ih idx ops msgs effs recs
        · simp only []
          by_cases hc : (cheatOnly.contains m || !en) = true
          · simp only [hc, if_true]
            rcases hf : env.renameFail temp ("~" ++ strip_prefix m)
              with _ | e
            · exact ih idx (ops + 1) _ _ _
            · rfl
          · simp only [hc, Bool.false_eq_true, if_false]
            rcases hf : env.renameFail temp
                (pad2 (idx + 1) ++ "_" ++ strip_prefix m) with _ | e
            · exact ih (idx + 1) (ops + 1) _ _ _
            · rfl

theorem specialStep_restore (env : Env) (s : String)
    (tm : List (String × String)) (temp : String)
    (hpop : (popAssoc tm ( strip_prefix s)).1 = some temp)
    (hok : env.renameFail temp s = none) :
    specialStep env (some s) tm =
      ([Eff.rename temp s], (popAssoc tm ( strip_prefix s)).2, none) := by
  have h1 : specialStep env (some s) tm =
      (match (popAssoc tm ( strip_prefix s)).1 with
       | none => ([], (popAssoc tm ( strip_prefix s)).2, none)
       | some temp =>
         match env.renameFail temp s with
         | some e => ([], (popAssoc tm ( strip_prefix s)).2, some e)
         | none =>
             ([Eff.rename temp s], (popAssoc tm ( strip_prefix s)).2,
               none)) := rfl
  rw [h1, hpop]
  show (match env.renameFail temp s with
        | some e => ([], (popAssoc tm ( strip_prefix s)).2, some e)
        | none =>
            ([Eff.rename temp s], (popAssoc tm ( strip_prefix s)).2,
              none)) =
      ([Eff.rename temp s], (popAssoc tm ( strip_prefix s)).2, none)
  rw [hok]

/-- C7. Scan side (for a well-formed root whose analysis detects the
special cheats folder `s`): `s` is excluded from file enumeration
(`mod_files` has no entry for it) and never appears in the conflict map,
neither with an entry of its own nor as a contributor in another mod's
entry. Apply side: the phase-2 loop processes a `desiredOrder` as if
every entry for the special folder were absent (it is skipped with no
message, effect, rename or record, so it is never given a numeric or `~`
prefix there), and the dedicated special step renames the folder from
its temp name back to exactly its original raw name while removing it
from the temp map. -/
theorem C7_special_cheats_exclusion :
    (∀ (root : List ModDir) (s : String), WFRoot root →
      (scan_and_analyze root).special_cheats_folder_name = some s →
      lookupA (scan_and_analyze root).mod_files s = none ∧
      (∀ f, inConflictB (scan_and_analyze root) s f = false) ∧
      (∀ m f, contributorB (scan_and_analyze root) m f s = false)) ∧
    (∀ (env : Env) (special : Option String) (cheatOnly : List String)
      (tm : List (String × String)) (total : Nat)
      (config : List (String × Bool)) (idx ops : Nat) (msgs : List Msg)
      (effs : List Eff) (recs : List (String × Bool)),
      phase2Loop env special cheatOnly tm total config idx ops msgs effs
        recs =
      phase2Loop env special cheatOnly tm total
        (config.filter (fun p => ¬ some p.1 = special)) idx ops msgs effs
        recs) ∧
    (∀ (env : Env) (s : String) (tm : List (String × String))
      (temp : String),
      (popAssoc tm ( strip_prefix s)).1 = some temp →
      env.renameFail temp s = none →
      specialStep env (some s) tm =
        ([Eff.rename temp s], (popAssoc tm ( strip_prefix s)).2, none)) := by
  refine ⟨?_, ?_, ?_⟩
  · intro root s hwf hs
    rw [scan_special_eq] at hs
    refine ⟨?_, fun f => scan_special_no_conflict root hwf s hs f,
      fun m f => scan_special_no_contributor root hwf s hs m f⟩
    rw [scan_mod_files_eq]
    exact scan_special_not_provider root s hs
  · intro env special cheatOnly tm total config idx ops msgs effs recs
    exact phase2Loop_skip_special env special cheatOnly tm total config idx
      ops msgs effs recs
  · intro env s tm temp hpop hok
    exact specialStep_restore env s tm temp hpop hok

/-- A root whose analysis detects a special cheats folder. -/
def c7root : List ModDir :=
  [⟨"Cheats", [FsEntry.file "readme.txt"]⟩,
   ⟨"M", [FsEntry.file "f.bin"]⟩]

/-- An environment in which every rename succeeds. -/
def c7env : Env := ⟨"m", Except.ok [], fun _ _ => none, none, none, none⟩

/-- Witness for `C7_special_cheats_exclusion`: the concrete root `c7root`
(special folder `Cheats`), a one-entry phase-2 config consisting of the
special folder only, and a one-entry temp map. -/
theorem C7_special_cheats_exclusion_witness :
    WFRoot c7root ∧
    (scan_and_analyze c7root).special_cheats_folder_name = some "Cheats" ∧
    lookupA (scan_and_analyze c7root).mod_files "Cheats" = none ∧
    inConflictB (scan_and_analyze c7root) "Cheats" "f.bin" = false ∧
    contributorB (scan_and_analyze c7root) "M" "f.bin" "Cheats" = false ∧
    phase2Loop c7env (some "Cheats") [] [] 2 [("Cheats", true)] 0 0 [] []
        [] =
      phase2Loop c7env (some "Cheats") [] [] 2 [] 0 0 [] [] [] ∧
    specialStep c7env (some "Cheats")
        [("Cheats", "Cheats__temp_rename__")] =
      ([Eff.rename "Cheats__temp_rename__" "Cheats"], [], none) :=
  ⟨by decide, by decide,
   (C7_special_cheats_exclusion.1 c7root "Cheats" (by decide)
     (by decide)).1,
   (C7_special_cheats_exclusion.1 c7root "Cheats" (by decide)
     (by decide)).2.1 "f.bin",
   (C7_special_cheats_exclusion.1 c7root "Cheats" (by decide)
     (by decide)).2.2 "M" "f.bin",
   by
     have h := C7_special_cheats_exclusion.2.1 c7env (some "Cheats") [] []
       2 [("Cheats", true)] 0 0 [] [] []
     exact h.trans (by rfl),
   by
     have h := C7_special_cheats_exclusion.2.2 c7env "Cheats"
       [("Cheats", "Cheats__temp_rename__")] "Cheats__temp_rename__"
       (by decide) rfl
     exact h.trans (by decide)⟩

/-!
## Natural-order equivalence (C6)
-/

theorem specRuns_nil : specRuns [] = [] := by rw [specRuns]

theorem specRuns_digit (d : Char) (t : List Char) (hd : d.isDigit = true) :
    specRuns (d :: t) =
      Chunk.num (digVal (List.takeWhile Char.isDigit (d :: t))) ::
        specRuns (List.dropWhile Char.isDigit t) := by
  rw [specRuns, if_pos hd]

theorem specRuns_nondigit (c : Char) (t : List Char)
    (hd : c.isDigit = false) :
    specRuns (c :: t) =
      Chunk.str (List.takeWhile (fun x => !x.isDigit) (c :: t)) ::
        specRuns (List.dropWhile (fun x => !x.isDigit) t) := by
  rw [specRuns, if_neg (by simp [hd])]

theorem takeWhile_digit_head (c : Char) (t : List Char)
    (hd : c.isDigit = true) :
    (c :: t).takeWhile (fun x => !x.isDigit) = [] := by
  simp [List.takeWhile_cons, hd]

theorem dropWhile_digit_head (c : Char) (t : List Char)
    (hd : c.isDigit = true) :
    (c :: t).dropWhile (fun x => !x.isDigit) = c :: t := by
  simp [List.dropWhile_cons, hd]

theorem takeWhile_nondigit_head (c : Char) (t : List Char)
    (hd : c.isDigit = false) :
    (c :: t).takeWhile (fun x => !x.isDigit) =
      c :: t.takeWhile (fun x => !x.isDigit) := by
  simp [List.takeWhile_cons, hd]

theorem dropWhile_nondigit_head (c : Char) (t : List Char)
    (hd : c.isDigit = false) :
    (c :: t).dropWhile (fun x => !x.isDigit) =
      t.dropWhile (fun x => !x.isDigit) := by
  simp [List.dropWhile_cons, hd]

theorem pySplitF_congr : ∀ (n fuel fuel' : Nat) (cs : List Char),
    cs.length ≤ fuel → cs.length ≤ fuel' → cs.length ≤ n →
    pySplitF fuel cs = pySplitF fuel' cs := by
  intro n
  induction n with
  | zero =>
      intro fuel fuel' cs h1 h2 h3
      have hcs : cs = [] := List.length_eq_zero.mp (Nat.le_zero.mp h3)
      subst hcs
      cases fuel <;> cases fuel' <;> rfl
  | succ n ih =>
      intro fuel fuel' cs h1 h2 h3
      rcases cs with _ | ⟨c0, t0⟩
      · cases fuel <;> cases fuel' <;> rfl
      · rcases fuel with _ | f
        · simp at h1
        · rcases fuel' with _ | f'
          · simp at h2
          · simp only [pySplitF]
            rcases hdw : (c0 :: t0).dropWhile (fun c => !c.isDigit)
              with _ | ⟨c, t⟩
            · rw [hdw]
            · rw [hdw]
              have hlen1 : (c :: t).length ≤ (c0 :: t0).length := by
                rw [← hdw]
                exact length_dropWhile_le _ _
              have hlen2 := length_dropWhile_le Char.isDigit t
              have hx : (List.dropWhile Char.isDigit t).length ≤ n := by
                simp at hlen1 h3
                omega
              have hf : (List.dropWhile Char.isDigit t).length ≤ f := by
                simp at hlen1 h1
                omega
              have hf' : (List.dropWhile Char.isDigit t).length ≤ f' := by
                simp at hlen1 h2
                omega
              exact congrArg
                (fun z =>
                  Chunk.str ((c0 :: t0).takeWhile (fun c => !c.isDigit)) ::
                    Chunk.num (digVal
                      (List.takeWhile Char.isDigit (c :: t))) :: z)
                (ih f f' (List.dropWhile Char.isDigit t) hf hf' hx)

theorem pySplit_eq (cs : List Char) :
    pySplit cs =
      (match cs.dropWhile (fun c => !c.isDigit) with
       | [] => [Chunk.str (cs.takeWhile (fun c => !c.isDigit))]
       | c :: t =>
           Chunk.str (cs.takeWhile (fun c => !c.isDigit)) ::
             Chunk.num (digVal (List.takeWhile Char.isDigit (c :: t))) ::
               pySplit (List.dropWhile Char.isDigit t)) := by
  rcases cs with _ | ⟨c0, t0⟩
  · rfl
  · show pySplitF (t0.length + 1) (c0 :: t0) = _
    simp only [pySplitF]
    rcases hdw : (c0 :: t0).dropWhile (fun c => !c.isDigit) with _ | ⟨c, t⟩
    · rw [hdw]
    · rw [hdw]
      have hlen1 : (c :: t).length ≤ (c0 :: t0).length := by
        rw [← hdw]
        exact length_dropWhile_le _ _
      have hlen2 := length_dropWhile_le Char.isDigit t
      apply congrArg (fun z =>
        Chunk.str ((c0 :: t0).takeWhile (fun c => !c.isDigit)) ::
          Chunk.num (digVal (List.takeWhile Char.isDigit (c :: t))) :: z)
      unfold pySplit
      apply pySplitF_congr (List.dropWhile Char.isDigit t).length
      · simp at hlen1
        omega
      · exact le_rfl
      · exact le_rfl

/-- The part of a Python sort key after its leading non-digit stretch:
empty, or the leading digit run and the key of the remainder. -/
def pyTail : List Char → List Chunk
  | [] => []
  | c :: t =>
      Chunk.num (digVal (List.takeWhile Char.isDigit (c :: t))) ::
        pySplit (List.dropWhile Char.isDigit t)

theorem pyTail_nil : pyTail [] = [] := rfl

theorem pyTail_cons (c : Char) (t : List Char) :
    pyTail (c :: t) =
      Chunk.num (digVal (List.takeWhile Char.isDigit (c :: t))) ::
        pySplit (List.dropWhile Char.isDigit t) := rfl

theorem pySplit_head (cs : List Char) :
    pySplit cs =
      Chunk.str (cs.takeWhile (fun c => !c.isDigit)) ::
        pyTail (cs.dropWhile (fun c => !c.isDigit)) := by
  rw [pySplit_eq cs]
  rcases hdw : cs.dropWhile (fun c => !c.isDigit) with _ | ⟨c, t⟩
  · rw [hdw]
    exact rfl
  · rw [hdw]
    exact rfl

theorem specRuns_decomp (cs : List Char) :
    specRuns cs =
      (if cs.takeWhile (fun c => !c.isDigit) = [] then []
       else [Chunk.str (cs.takeWhile (fun c => !c.isDigit))]) ++
        specRuns (cs.dropWhile (fun c => !c.isDigit)) := by
  rcases cs with _ | ⟨c, t⟩
  · simp [specRuns_nil]
  · by_cases hd : c.isDigit
    · rw [takeWhile_digit_head c t hd, dropWhile_digit_head c t hd]
      simp
    · have hd' : c.isDigit = false := Bool.eq_false_iff.mpr hd
      rw [specRuns_nondigit c t hd', takeWhile_nondigit_head c t hd',
        dropWhile_nondigit_head c t hd']
      simp

theorem dropWhile_shape : ∀ cs : List Char,
    cs.dropWhile (fun c => !c.isDigit) = [] ∨
    ∃ d t, cs.dropWhile (fun c => !c.isDigit) = d :: t ∧
      d.isDigit = true := by
  intro cs
  induction cs with
  | nil => exact Or.inl rfl
  | cons c t ih =>
      by_cases hd : c.isDigit
      · exact Or.inr ⟨c, t, dropWhile_digit_head c t hd, hd⟩
      · have hd' : c.isDigit = false := Bool.eq_false_iff.mpr hd
        rw [dropWhile_nondigit_head c t hd']
        exact ih

theorem keyLt_cons (x y : Chunk) (u v : List Chunk) :
    keyLt (x :: u) (y :: v) = if x = y then keyLt u v else chunkLt x y := rfl

theorem chunkLt_str (x y : List Char) :
    chunkLt (Chunk.str x) (Chunk.str y) = strLt x y := rfl

theorem chunkLt_num (m n : Nat) :
    chunkLt (Chunk.num m) (Chunk.num n) = decide (m < n) := rfl

theorem strLt_nil_left (x : List Char) (hx : ¬ x = []) :
    strLt [] x = true := by
  rcases x with _ | ⟨c, t⟩
  · exact absurd rfl hx
  · rfl

theorem strLt_nil_right (x : List Char) : strLt x [] = false := by
  rcases x with _ | ⟨c, t⟩
  · rfl
  · rfl

theorem keyLt_nil_left (v : List Chunk) (hv : ¬ v = []) :
    keyLt [] v = true := by
  rcases v with _ | ⟨c, t⟩
  · exact absurd rfl hv
  · rfl

theorem keyLt_nil_right (v : List Chunk) : keyLt v [] = false := by
  rcases v with _ | ⟨c, t⟩
  · rfl
  · rfl

theorem keyLt_py_spec : ∀ (n : Nat) (a b : List Char),
    a.length + b.length ≤ n →
    keyLt (pySplit a) (pySplit b) = keyLt (specRuns a) (specRuns b) := by
  intro n
  induction n with
  | zero =>
      intro a b h
      have ha : a = [] := List.length_eq_zero.mp (by omega)
      have hb : b = [] := List.length_eq_zero.mp (by omega)
      subst ha
      subst hb
      rw [specRuns_nil]
      exact rfl
  | succ n ih =>
      intro a b h
      rw [pySplit_head a, pySplit_head b, specRuns_decomp a,
        specRuns_decomp b]
      have hR : keyLt (pyTail (a.dropWhile (fun c => !c.isDigit)))
            (pyTail (b.dropWhile (fun c => !c.isDigit))) =
          keyLt (specRuns (a.dropWhile (fun c => !c.isDigit)))
            (specRuns (b.dropWhile (fun c => !c.isDigit))) := by
        rcases dropWhile_shape a with hra | ⟨da, ta2, hra, hda⟩
        · rcases dropWhile_shape b with hrb | ⟨db, tb2, hrb, hdb⟩
          · rw [hra, hrb, specRuns_nil]
            exact rfl
          · rw [hra, hrb, specRuns_nil, specRuns_digit db tb2 hdb]
            exact rfl
        · rcases dropWhile_shape b with hrb | ⟨db, tb2, hrb, hdb⟩
          · rw [hra, hrb, specRuns_nil, specRuns_digit da ta2 hda]
            exact rfl
          · rw [hra, hrb, specRuns_digit da ta2 hda,
              specRuns_digit db tb2 hdb, pyTail_cons, pyTail_cons,
              keyLt_cons, keyLt_cons]
            by_cases hv : digVal (List.takeWhile Char.isDigit (da :: ta2)) =
                digVal (List.takeWhile Char.isDigit (db :: tb2))
            · have hEq : Chunk.num (digVal
                  (List.takeWhile Char.isDigit (da :: ta2))) =
                  Chunk.num (digVal
                    (List.takeWhile Char.isDigit (db :: tb2))) := by
                rw [hv]
              rw [if_pos hEq]
              rw [if_pos hEq]
              apply ih
              have l1 : (da :: ta2).length ≤ a.length := by
                rw [← hra]
                exact length_dropWhile_le _ a
              have l2 : (db :: tb2).length ≤ b.length := by
                rw [← hrb]
                exact length_dropWhile_le _ b
              have l3 := length_dropWhile_le Char.isDigit ta2
              have l4 := length_dropWhile_le Char.isDigit tb2
              simp at l1 l2
              omega
            · have hne : ¬ Chunk.num (digVal
                  (List.takeWhile Char.isDigit (da :: ta2))) =
                  Chunk.num (digVal
                    (List.takeWhile Char.isDigit (db :: tb2))) := by
                simp [hv]
              rw [if_neg hne]
              rw [if_neg hne]
      by_cases hT : a.takeWhile (fun c => !c.isDigit) =
          b.takeWhile (fun c => !c.isDigit)
      · rw [← hT]
        have hc1 : keyLt
            (Chunk.str (a.takeWhile (fun c => !c.isDigit)) ::
              pyTail (a.dropWhile (fun c => !c.isDigit)))
            (Chunk.str (a.takeWhile (fun c => !c.isDigit)) ::
              pyTail (b.dropWhile (fun c => !c.isDigit))) =
            keyLt (pyTail (a.dropWhile (fun c => !c.isDigit)))
              (pyTail (b.dropWhile (fun c => !c.isDigit))) := by
          rw [keyLt_cons, if_pos rfl]
        rw [hc1]
        by_cases hTe : a.takeWhile (fun c => !c.isDigit) = []
        · rw [if_pos hTe, List.nil_append, List.nil_append]
          exact hR
        · rw [if_neg hTe, List.singleton_append, List.singleton_append]
          have hc2 : keyLt
              (Chunk.str (a.takeWhile (fun c => !c.isDigit)) ::
                specRuns (a.dropWhile (fun c => !c.isDigit)))
              (Chunk.str (a.takeWhile (fun c => !c.isDigit)) ::
                specRuns (b.dropWhile (fun c => !c.isDigit))) =
              keyLt (specRuns (a.dropWhile (fun c => !c.isDigit)))
                (specRuns (b.dropWhile (fun c => !c.isDigit))) := by
            rw [keyLt_cons, if_pos rfl]
          rw [hc2]
          exact hR
      · have hne1 : ¬ Chunk.str (a.takeWhile (fun c => !c.isDigit)) =
            Chunk.str (b.takeWhile (fun c => !c.isDigit)) := by
          simp [hT]
        rw [keyLt_cons, if_neg hne1, chunkLt_str]
        by_cases hTa : a.takeWhile (fun c => !c.isDigit) = []
        · have hTb : ¬ b.takeWhile (fun c => !c.isDigit) = [] := by
            intro hb2
            exact hT (by rw [hTa, hb2])
          rw [if_pos hTa, if_neg hTb, List.nil_append,
            List.singleton_append, hTa,
            strLt_nil_left (b.takeWhile (fun c => !c.isDigit)) hTb]
          rcases dropWhile_shape a with hra | ⟨da, ta2, hra, hda⟩
          · rw [hra, specRuns_nil]
            exact (keyLt_nil_left _ (by simp)).symm
          · rw [hra, specRuns_digit da ta2 hda]
            have hns : ¬ Chunk.num (digVal
                (List.takeWhile Char.isDigit (da :: ta2))) =
                Chunk.str (b.takeWhile (fun c => !c.isDigit)) := by
              simp
            rw [keyLt_cons, if_neg hns]
            exact rfl
        · by_cases hTb : b.takeWhile (fun c => !c.isDigit) = []
          · rw [if_neg hTa, if_pos hTb, List.singleton_append,
              List.nil_append, hTb, strLt_nil_right]
            rcases dropWhile_shape b with hrb | ⟨db, tb2, hrb, hdb⟩
            · rw [hrb, specRuns_nil, keyLt_nil_right]
            · rw [hrb, specRuns_digit db tb2 hdb]
              have hns : ¬ Chunk.str (a.takeWhile (fun c => !c.isDigit)) =
                  Chunk.num (digVal
                    (List.takeWhile Char.isDigit (db :: tb2))) := by
                simp
              rw [keyLt_cons, if_neg hns]
              exact rfl
          · rw [if_neg hTa, if_neg hTb, List.singleton_append,
              List.singleton_append, keyLt_cons, if_neg hne1, chunkLt_str]

/-- C6. The scanner's ordering coincides with the spec's natural
comparator: splitting each name into alternating digit and non-digit
runs, comparing digit runs as integers and non-digit runs
lexicographically by code point (with a digit run ordering before a
non-digit run at the same position, the convention the code's key shape
forces); in particular the directory names `10_Foo`, `2_Bar`, `1_Baz`
scan in the order `1_Baz`, `2_Bar`, `10_Foo`. -/
theorem C6_natural_sort_order :
    (∀ a b : String, dirLt a b = naturalLt a b) ∧
    get_current_load_order ["10_Foo", "2_Bar", "1_Baz"] =
      ["1_Baz", "2_Bar", "10_Foo"] := by
  refine ⟨?_, by decide⟩
  intro a b
  unfold dirLt naturalLt
  exact keyLt_py_spec (a.data.length + b.data.length) a.data b.data le_rfl

end DreamSort
